import Mathlib

/-!
Verification of the `ladspa.rs` adapter layer (src/lib.rs, src/ffi.rs).

Shallow embedding conventions:
* the LADSPA sample type `Data` (`f32` in the source) is modelled as `ℚ`;
  every arithmetic operation the code performs (`+`, `*`) is mirrored
  one-for-one, so algebraic identities proved here correspond to the exact
  sequence of operations the code executes;
* raw pointers are modelled as natural-number addresses into a flat memory
  `Mem : Nat → Data`; a Rust slice (`*mut Data` plus a length) is a
  `SliceView`;
* a Rust panic inside author-supplied code is modelled with `Except` /
  `Option`: `Except.error` (or an `Option String` error component) is a
  panic that `std::panic::catch_unwind` catches at the FFI boundary;
  an operation of the adapter itself that can panic (index out of bounds,
  `unwrap` on a missing scratch buffer, an `Invalid` port descriptor)
  returns `Option`, `none` being the panic;
* `Box::into_raw` pointer identity in the descriptor registry is modelled
  by handing out a fresh numeric id per built descriptor;
* heap allocation inside `run_adding` (growing a scratch `Vec`) takes fresh
  addresses from a watermark counter `next`; a reallocation that grows a
  buffer is modelled as a fresh allocation plus a copy, which is the
  pessimistic (pointer-moving) behaviour of `Vec::resize`.
-/

namespace Ladspa

/-- `type Data = f32` (src/lib.rs line 34), modelled as ℚ. -/
abbrev Data : Type := ℚ

/-- Flat memory: every address holds one `Data` sample. -/
abbrev Mem : Type := Nat → Data

/-- A single store to memory. -/
def memWrite (m : Mem) (a : Nat) (v : Data) : Mem :=
  fun x => if x = a then v else m x

/-- `PORT_INPUT` from the `ladspa_h` module (src/ffi.rs line 122). -/
def PORT_INPUT : Nat := 0x1
/-- `PORT_OUTPUT` (src/ffi.rs line 123). -/
def PORT_OUTPUT : Nat := 0x2
/-- `PORT_CONTROL` (src/ffi.rs line 124). -/
def PORT_CONTROL : Nat := 0x4
/-- `PORT_AUDIO` (src/ffi.rs line 125). -/
def PORT_AUDIO : Nat := 0x8

/-- `enum PortDescriptor` (src/lib.rs lines 58-66). -/
inductive PortDescriptor where
  | Invalid
  | AudioInput
  | AudioOutput
  | ControlInput
  | ControlOutput
deriving DecidableEq

/-- The numeric discriminant of each `PortDescriptor` variant
(src/lib.rs lines 61-65): bitwise combinations of the `ladspa_h` port
constants. -/
def PortDescriptor.code : PortDescriptor → Nat
  | .Invalid => 0
  | .AudioInput => Nat.lor PORT_AUDIO PORT_INPUT
  | .AudioOutput => Nat.lor PORT_AUDIO PORT_OUTPUT
  | .ControlInput => Nat.lor PORT_CONTROL PORT_INPUT
  | .ControlOutput => Nat.lor PORT_CONTROL PORT_OUTPUT

/-- `HINT_TOGGLED` (src/ffi.rs line 129). -/
def HINT_TOGGLED : Nat := 0x4
/-- `HINT_SAMPLE_RATE` (src/ffi.rs line 130). -/
def HINT_SAMPLE_RATE : Nat := 0x8
/-- `HINT_LOGARITHMIC` (src/ffi.rs line 131). -/
def HINT_LOGARITHMIC : Nat := 0x10
/-- `HINT_INTEGER` (src/ffi.rs line 132). -/
def HINT_INTEGER : Nat := 0x20

/-- `bitflags! ControlHint` (src/lib.rs lines 68-76): a set of four flags. -/
structure ControlHint where
  toggled : Bool
  sampleRate : Bool
  logarithmic : Bool
  integer : Bool
deriving DecidableEq

/-- `ControlHint::bits()`: the bitset value of the flags. -/
def ControlHint.bits (h : ControlHint) : Nat :=
  Nat.lor (cond h.toggled HINT_TOGGLED 0)
    (Nat.lor (cond h.sampleRate HINT_SAMPLE_RATE 0)
      (Nat.lor (cond h.logarithmic HINT_LOGARITHMIC 0)
        (cond h.integer HINT_INTEGER 0)))

/-- `enum DefaultValue` (src/lib.rs lines 78-89). -/
inductive DefaultValue where
  | Minimum
  | Low
  | Middle
  | High
  | Maximum
  | Value0
  | Value1
  | Value100
  | Value440
deriving DecidableEq

/-- The numeric discriminant of each `DefaultValue` variant: the
`HINT_DEFAULT_*` constants of src/ffi.rs lines 133-141. -/
def DefaultValue.code : DefaultValue → Nat
  | .Minimum => 0x40
  | .Low => 0x80
  | .Middle => 0xC0
  | .High => 0x100
  | .Maximum => 0x140
  | .Value0 => 0x200
  | .Value1 => 0x240
  | .Value100 => 0x280
  | .Value440 => 0x2C0

/-- `struct Port` (src/lib.rs lines 48-56). -/
structure Port where
  name : String
  desc : PortDescriptor
  hint : Option ControlHint
  default : Option DefaultValue
  lower_bound : Option Data
  upper_bound : Option Data
deriving DecidableEq

/-- `struct PluginDescriptor` (src/lib.rs lines 37-46); the `new` factory
function is modelled separately as a parameter of `instantiate`.
`properties` is the bitset value `Properties::bits()`. -/
structure PluginDescriptor where
  unique_id : Nat
  label : String
  properties : Nat
  name : String
  maker : String
  copyright : String
  ports : List Port
deriving DecidableEq

/-- `ladspa_h::PortRangeHint` (src/ffi.rs lines 86-92). -/
structure PortRangeHint where
  hint_descriptor : Nat
  lower_bound : Data
  upper_bound : Data
deriving DecidableEq

/-- The flat `ladspa_h::Descriptor` record (src/ffi.rs lines 94-116), with
each owned allocation replaced by its contents (the ownership/free story is
modelled separately by the allocation ledger below). The eight function
pointers are constants in the source and are omitted. -/
structure FlatDescriptor where
  unique_id : Nat
  label : String
  properties : Nat
  name : String
  maker : String
  copyright : String
  port_count : Nat
  port_descriptors : List Nat
  port_names : List String
  port_range_hints : List PortRangeHint
deriving DecidableEq

/-- The range-hint record built for one port (src/ffi.rs lines 179-187):
`hint_descriptor` is `port.hint.map(|x| x.bits()).unwrap_or(0) |
port.default.map(|x| x as i32).unwrap_or(0)`, and the bounds are
`port.lower_bound.unwrap_or(0.0)` / `port.upper_bound.unwrap_or(0.0)`. -/
def mkHint (p : Port) : PortRangeHint :=
  { hint_descriptor :=
      Nat.lor ((p.hint.map ControlHint.bits).getD 0)
        ((p.default.map DefaultValue.code).getD 0)
  , lower_bound := p.lower_bound.getD 0
  , upper_bound := p.upper_bound.getD 0 }

/-- The descriptor builder: the `Some(plugin)` branch of `ladspa_descriptor`
(src/ffi.rs lines 162-197). -/
def mkDescriptor (plugin : PluginDescriptor) : FlatDescriptor :=
  { unique_id := plugin.unique_id
  , label := plugin.label
  , properties := plugin.properties
  , name := plugin.name
  , maker := plugin.maker
  , copyright := plugin.copyright
  , port_count := plugin.ports.length
  , port_descriptors := plugin.ports.map (fun p => p.desc.code)
  , port_names := plugin.ports.map Port.name
  , port_range_hints := plugin.ports.map mkHint }

/-! ### Descriptor registry (`static mut DESCRIPTORS`, src/ffi.rs 32, 144-204)

The registry state: `initialized` models `DESCRIPTORS` being non-null (the
cache `Vec` allocated and `atexit(global_destruct)` registered), `cache` is
the `Vec<*mut Descriptor>` with each raw pointer modelled as a numeric id,
and `nextId` mints a fresh id per `Box::into_raw` so that pointer identity
is observable. -/
structure RegState where
  initialized : Bool
  cache : List Nat
  nextId : Nat
deriving DecidableEq

/-- The registry before the first `ladspa_descriptor` call: `DESCRIPTORS`
is null. -/
def RegState.start : RegState := ⟨false, [], 0⟩

/-- Result of one `ladspa_descriptor` call: the returned pointer (`none` is
null), the registry state afterwards, the diagnostic log, and whether the
author's `get_ladspa_descriptor` was invoked during the call. -/
structure LookupResult where
  result : Option Nat
  state : RegState
  log : List String
  invoked : Bool
deriving DecidableEq

/-- The diagnostic written by the `call_user_code!` macro
(src/ffi.rs lines 17-30): `eprintln!("LADSPA Plugin Error in {}: ...")`. -/
def errMsg (context : String) : String :=
  String.append ("LADSPA Plugin Error in ") context

/-- `ladspa_descriptor` (src/ffi.rs lines 144-204).
`describe` is the author's `get_ladspa_descriptor`; an `Except.error` is a
panic inside it, which `call_user_code!` converts to the default `None`
after logging. On a cache hit (`index < descriptors.len()`) the cached
pointer is returned unchanged and author code is not invoked; otherwise the
author is asked, a `Some` answer is built (`mkDescriptor`), boxed (fresh
id) and pushed, and a `None` answer yields null with nothing cached. -/
def ladspa_descriptor (describe : Nat → Except String (Option PluginDescriptor))
    (index : Nat) (st : RegState) (log : List String) : LookupResult :=
  let st1 : RegState := if st.initialized then st else { st with initialized := true }
  if _h : index < st1.cache.length then
    { result := some (st1.cache.get ⟨index, _h⟩), state := st1, log := log, invoked := false }
  else
    match describe index with
    | .error _ =>
        { result := none, state := st1
        , log := log ++ [errMsg ("get_ladspa_descriptor")], invoked := true }
    | .ok none =>
        { result := none, state := st1, log := log, invoked := true }
    | .ok (some _plugin) =>
        { result := some st1.nextId
        , state := { st1 with cache := st1.cache ++ [st1.nextId], nextId := st1.nextId + 1 }
        , log := log, invoked := true }

/-- A sequence of host lookups, threading only the registry state. -/
def runCalls (describe : Nat → Except String (Option PluginDescriptor))
    (calls : List Nat) (st : RegState) : RegState :=
  calls.foldl (fun s i => (ladspa_descriptor describe i s []).state) st

/-! ### Allocation ledger for one flat descriptor

Every separately owned heap allocation that the `Some(plugin)` branch of
`ladspa_descriptor` makes for one descriptor (src/ffi.rs lines 163-197),
tagged by what it is; `nameStr i` is the owned `CString` for the name of
port `i`. -/
inductive Alloc where
  | label
  | name
  | maker
  | copyright
  | kindsArr
  | nameStr (i : Nat)
  | namesArr
  | hintsArr
  | metaBox
  | descRecord
deriving DecidableEq

/-- The order in which the builder makes its allocations for a descriptor
with `n` ports, following the evaluation order of the struct literal in
src/ffi.rs lines 163-197: the four `CString`s, the port-kind array, the
port-name `CString`s (inside the `map`) then the boxed pointer array, the
range-hint array, the boxed `PluginDescriptor`, and finally the boxed
`Descriptor` record itself. -/
def buildOrder (n : Nat) : List Alloc :=
  [.label, .name, .maker, .copyright, .kindsArr]
    ++ (List.range n).map Alloc.nameStr
    ++ [.namesArr, .hintsArr, .metaBox, .descRecord]

/-- The order in which `drop_descriptor` (src/ffi.rs lines 46-72) frees the
same allocations: each `let _ = ...` statement drops its value at once
(label, name, maker, copyright, the port-kind array, then — while the
`names` vector is still live — each port-name `CString` in forward index
order, the range-hint array, the boxed `PluginDescriptor`, the `Descriptor`
record), and the `names` pointer array itself, being bound to a named local,
is dropped last, at the end of the function scope. -/
def freeOrder (n : Nat) : List Alloc :=
  [.label, .name, .maker, .copyright, .kindsArr]
    ++ (List.range n).map Alloc.nameStr
    ++ [.hintsArr, .metaBox, .descRecord, .namesArr]

/-- One free event during teardown: an allocation of the `j`-th cached
descriptor, or the registry container (the boxed `Vec` behind
`DESCRIPTORS`). -/
inductive FreeEvt where
  | desc (j : Nat) (a : Alloc)
  | registryContainer
deriving DecidableEq

/-- The state `global_destruct` sees: `none` models `DESCRIPTORS` being
null, `some counts` the cached descriptors, each represented by its port
count (the only datum `drop_descriptor` consults for the variable-length
frees). -/
structure TeardownState where
  cache : Option (List Nat)
deriving DecidableEq

/-- `global_destruct` (src/ffi.rs lines 34-44): if `DESCRIPTORS` is null it
does nothing; otherwise it walks every cached descriptor in cache order,
runs `drop_descriptor` on each (emitting that descriptor's `freeOrder`),
lets the registry `Vec` drop at the end of the scope, and nulls
`DESCRIPTORS`. Returns the list of free events and the state afterwards. -/
def global_destruct : TeardownState → List FreeEvt × TeardownState
  | ⟨none⟩ => ([], ⟨none⟩)
  | ⟨some counts⟩ =>
      ((counts.enum.flatMap fun jn => (freeOrder jn.2).map (FreeEvt.desc jn.1))
         ++ [.registryContainer],
       ⟨none⟩)

/-- A concrete one-port plugin used by the concrete counterexamples. -/
def examplePlugin : PluginDescriptor :=
  { unique_id := 9000
  , label := "ex"
  , properties := 0
  , name := "Example"
  , maker := "nobody"
  , copyright := "none"
  , ports := [ { name := "out"
               , desc := .AudioOutput
               , hint := none
               , default := none
               , lower_bound := none
               , upper_bound := none } ] }

/-- An author `describe` with two plugins, at indices 0 and 1. -/
def describeTwo : Nat → Except String (Option PluginDescriptor) :=
  fun i => .ok (if i ≤ 1 then some examplePlugin else none)

/-- An author `describe` answering only index 1 (index 0 has no plugin). -/
def describeGap : Nat → Except String (Option PluginDescriptor) :=
  fun i => .ok (if i = 1 then some examplePlugin else none)

/-! ### Per-instance model: `Handle`, port connections, run / run_adding
(src/ffi.rs lines 206-417) -/

/-- A Rust slice over host or scratch memory: base pointer plus length.
`slice::from_raw_parts(ptr, len)` is `⟨ptr, len⟩`. -/
structure SliceView where
  base : Nat
  len : Nat
deriving DecidableEq

/-- `enum PortData` (src/lib.rs lines 96-101). The `RefCell` wrapping of
the output kinds is implicit: mutation of a connection's view is explicit
state passing on `Handle.port_map`. Control kinds hold the single scalar's
address. -/
inductive PortData where
  | audioInput (v : SliceView)
  | audioOutput (v : SliceView)
  | controlInput (addr : Nat)
  | controlOutput (addr : Nat)
deriving DecidableEq

/-- `struct PortConnection` (src/lib.rs lines 91-94). -/
structure PortConnection where
  port : Port
  data : PortData
deriving DecidableEq

/-- Whether a connection is an audio output (the filter in
src/ffi.rs lines 231-233). -/
def isOutputConn (c : PortConnection) : Bool :=
  match c.data with
  | .audioOutput _ => true
  | _ => false

/-- `struct Handle` (src/ffi.rs lines 207-215). `descPorts` is
`handle.descriptor.ports`; `port_map` is the `VecMap` as an
association list sorted strictly by key; `portsKeys` models the Vec
`handle.ports` of references into the map: the keys, in the order the
references were taken, so that the connections the author receives are
looked up in the current map (reference aliasing); the author's boxed
plugin object is not stored — its `run` behaviour is a parameter of
`run`/`run_adding`. -/
structure Handle where
  descPorts : List Port
  port_map : List (Nat × PortConnection)
  portsKeys : List Nat
  adding_gain : Data
  scratch_buffers : List SliceView
  ptr_storage : List Nat
deriving DecidableEq

/-- The author's `Plugin::run` as the adapter sees it: given the sample
count and the ordered connection list it transforms memory; the optional
`String` is a panic, caught by `call_user_code!` at the boundary (memory
keeps whatever was written before the panic). -/
def PluginRun : Type :=
  Nat → List PortConnection → Mem → Mem × Option String

/-- `VecMap::insert` on the sorted association list: replaces the value at
an existing key, otherwise inserts in key order. -/
def vmInsert (k : Nat) (v : PortConnection) :
    List (Nat × PortConnection) → List (Nat × PortConnection)
  | [] => [(k, v)]
  | e :: rest =>
      if k < e.1 then (k, v) :: e :: rest
      else if k = e.1 then (k, v) :: rest
      else e :: vmInsert k v rest

/-- `VecMap` lookup. -/
def vmLookup (k : Nat) : List (Nat × PortConnection) → Option PortConnection
  | [] => none
  | e :: rest => if k = e.1 then some e.2 else vmLookup k rest

/-- The fresh `Handle` built by `instantiate` (src/ffi.rs lines 311-322):
empty port map, empty ports list, `adding_gain: 1.0`, no scratch buffers,
no saved pointers. -/
def handleInit (ports : List Port) : Handle :=
  { descPorts := ports
  , port_map := []
  , portsKeys := []
  , adding_gain := 1
  , scratch_buffers := []
  , ptr_storage := [] }

/-- `instantiate` (src/ffi.rs lines 299-324). The author's factory
`(rust_desc.new)(...)` is modelled by `factory`; `Except.error` is a panic,
which `call_user_code!` (context string `"PluginDescriptor::run"` in the
source) turns into a logged diagnostic and a null return. -/
def instantiate (ports : List Port) (factory : Except String Unit)
    (log : List String) : Option Handle × List String :=
  match factory with
  | .error _ => (none, log ++ [errMsg ("PluginDescriptor::run")])
  | .ok _ => (some (handleInit ports), log)

/-- `connect_port` (src/ffi.rs lines 326-363): look the port metadata up at
`port_num` (an out-of-range index panics — `none`), build the
kind-appropriate view with a zero-length slice for audio kinds, insert it
into the map, and once the map's size equals the descriptor's port count
rebuild the ordered `ports` list (`port_map.values().collect()` — the keys
in sorted order). -/
def connect_port (h : Handle) (port_num : Nat) (data_location : Nat) :
    Option Handle :=
  match h.descPorts.get? port_num with
  | none => none
  | some port =>
      match
        (match port.desc with
         | .AudioInput => some (PortData.audioInput ⟨data_location, 0⟩)
         | .AudioOutput => some (PortData.audioOutput ⟨data_location, 0⟩)
         | .ControlInput => some (PortData.controlInput data_location)
         | .ControlOutput => some (PortData.controlOutput data_location)
         | .Invalid => none) with
      | none => none
      | some data =>
          let pm := vmInsert port_num ⟨port, data⟩ h.port_map
          let keys :=
            if pm.length = h.descPorts.length then pm.map Prod.fst
            else h.portsKeys
          some { h with port_map := pm, portsKeys := keys }

/-- The per-connection refresh `run` performs (src/ffi.rs lines 368-380):
audio views get their length re-derived from the stored base pointer,
control connections are untouched. -/
def refreshConn (sc : Nat) (c : PortConnection) : PortConnection :=
  match c.data with
  | .audioInput v => { c with data := .audioInput ⟨v.base, sc⟩ }
  | .audioOutput v => { c with data := .audioOutput ⟨v.base, sc⟩ }
  | _ => c

/-- The refresh loop of `run` over the whole port map. -/
def refreshViews (sc : Nat) (pm : List (Nat × PortConnection)) :
    List (Nat × PortConnection) :=
  pm.map (fun e => (e.1, refreshConn sc e.2))

/-- The connection list the author receives: `&handle.ports`, i.e. the
stored references resolved in the current map. -/
def portsArg (h : Handle) : List PortConnection :=
  h.portsKeys.filterMap (fun k => vmLookup k h.port_map)

/-- `run` (src/ffi.rs lines 365-389): refresh every audio view's length to
`sample_count`, then invoke the author's `run` on the ordered connection
list inside `call_user_code!` (context `"Plugin::run"`). -/
def run (pr : PluginRun) (sc : Nat) (h : Handle) (m : Mem)
    (log : List String) : Handle × Mem × List String :=
  let h1 := { h with port_map := refreshViews sc h.port_map }
  let res := pr sc (portsArg h1) m
  (h1, res.1,
   match res.2 with
   | none => log
   | some _ => log ++ [errMsg ("Plugin::run")])

/-- `set_run_adding_gain` (src/ffi.rs lines 217-222). -/
def set_run_adding_gain (h : Handle) (gain : Data) : Handle :=
  { h with adding_gain := gain }

/-- `activate` (src/ffi.rs lines 391-400): runs the author's `activate`
inside `call_user_code!` (context `"Plugin::activate"`); the author's
plugin-internal state is opaque, so only the diagnostic effect is
modelled. -/
def activate (author : Except String Unit) (h : Handle) (log : List String) :
    Handle × List String :=
  (h, match author with
      | .ok _ => log
      | .error _ => log ++ [errMsg ("Plugin::activate")])

/-- `deactivate` (src/ffi.rs lines 402-411), context
`"Plugin::deactivate"`. -/
def deactivate (author : Except String Unit) (h : Handle) (log : List String) :
    Handle × List String :=
  (h, match author with
      | .ok _ => log
      | .error _ => log ++ [errMsg ("Plugin::deactivate")])

/-! ### run_adding (src/ffi.rs lines 224-297) -/

/-- Number of audio-output ports among the author-visible connections
(src/ffi.rs lines 231-233). -/
def countOutputs (ports : List PortConnection) : Nat :=
  (ports.filter isOutputConn).length

/-- Write the signal `c` into the `n` samples starting at `base`
(the behaviour of an author plugin that fills an output buffer). -/
def writeSig (c : Nat → Data) (base : Nat) : Nat → Mem → Mem
  | 0, m => m
  | n + 1, m => memWrite (writeSig c base n m) (base + n) (c n)

/-- `Vec::resize(samples, 0.0)` growing a buffer of `oldLen` elements at
`src` into a fresh block at `dst`: the old elements are copied, the rest is
zero-filled (`n` counts the new length). -/
def copyGrow (m : Mem) (src dst oldLen : Nat) : Nat → Mem
  | 0 => m
  | n + 1 =>
      memWrite (copyGrow m src dst oldLen n) (dst + n)
        (if n < oldLen then m (src + n) else 0)

/-- `if buf.len() < samples { buf.resize(samples, 0.0) }`
(src/ffi.rs lines 240-244) for one scratch buffer; a growing resize takes a
fresh block at the watermark `next`. -/
def growBuf (sc : Nat) (b : SliceView) (m : Mem) (next : Nat) :
    SliceView × Mem × Nat :=
  if b.len < sc then (⟨next, sc⟩, copyGrow m b.base next b.len sc, next + sc)
  else (b, m, next)

/-- The resize loop over all scratch buffers, in order. -/
def growAll (sc : Nat) : List SliceView → Mem → Nat →
    List SliceView × Mem × Nat
  | [], m, next => ([], m, next)
  | b :: rest, m, next =>
      let r1 := growBuf sc b m next
      let r2 := growAll sc rest r1.2.1 r1.2.2
      (r1.1 :: r2.1, r2.2.1, r2.2.2)

/-- Step 1 of `run_adding` (src/ffi.rs lines 229-244): ensure one scratch
buffer per audio output (`resize(num_outputs, Vec::new())`, only ever
growing the pool — a fresh empty `Vec` is `⟨0, 0⟩`), then grow each buffer
to at least `sample_count` samples. -/
def prepScratch (sc numOutputs : Nat) (bufs : List SliceView) (m : Mem)
    (next : Nat) : List SliceView × Mem × Nat :=
  growAll sc
    (if bufs.length < numOutputs
     then bufs ++ List.replicate (numOutputs - bufs.length) ⟨0, 0⟩
     else bufs)
    m next

/-- Step 2 of `run_adding` (src/ffi.rs lines 246-267): walk the port map in
key order; for each audio output save the current host pointer into
`ptr_storage` and redirect the view into the next unused scratch buffer
with length `sample_count` (a missing scratch buffer is the
`scratch_iter.next().unwrap()` panic — `none`); for each audio input just
refresh the view's length. Returns the redirected map and the saved
pointers in iteration order. -/
def redirectPass (sc : Nat) : List (Nat × PortConnection) → List SliceView →
    Option (List (Nat × PortConnection) × List Nat)
  | [], _ => some ([], [])
  | e :: rest, scratch =>
      match e.2.data with
      | .audioOutput v =>
          match scratch with
          | [] => none
          | s :: srest =>
              match redirectPass sc rest srest with
              | none => none
              | some pr =>
                  some ((e.1, { e.2 with data := .audioOutput ⟨s.base, sc⟩ }) :: pr.1,
                        v.base :: pr.2)
      | .audioInput v =>
          match redirectPass sc rest scratch with
          | none => none
          | some pr =>
              some ((e.1, { e.2 with data := .audioInput ⟨v.base, sc⟩ }) :: pr.1, pr.2)
      | _ =>
          match redirectPass sc rest scratch with
          | none => none
          | some pr => some (e :: pr.1, pr.2)

/-- `host[i] += scratch[i] * gain` for `i` in `0..n`
(src/ffi.rs lines 288-290), ascending. -/
def mixInto (m : Mem) (hostBase scratchBase : Nat) (gain : Data) : Nat → Mem
  | 0 => m
  | n + 1 =>
      let m1 := mixInto m hostBase scratchBase gain n
      memWrite m1 (hostBase + n) (m1 (hostBase + n) + m1 (scratchBase + n) * gain)

/-- Step 4 of `run_adding` (src/ffi.rs lines 275-295): walk the port map in
the same order, and for each audio output take the next saved host pointer
and the next scratch buffer, mix the scratch contents into the host buffer
scaled by the gain, and restore the connection's view to the host pointer
with length `sample_count`; an exhausted iterator is the `unwrap` panic
(`none`). Other connections are untouched. -/
def mixPass (sc : Nat) (gain : Data) :
    List (Nat × PortConnection) → List Nat → List SliceView → Mem →
    Option (List (Nat × PortConnection) × Mem)
  | [], _, _, m => some ([], m)
  | e :: rest, storage, scratch, m =>
      match e.2.data with
      | .audioOutput _ =>
          match storage, scratch with
          | hp :: hrest, s :: srest =>
              match mixPass sc gain rest hrest srest (mixInto m hp s.base gain sc) with
              | none => none
              | some pr =>
                  some ((e.1, { e.2 with data := .audioOutput ⟨hp, sc⟩ }) :: pr.1, pr.2)
          | _, _ => none
      | _ =>
          match mixPass sc gain rest storage scratch m with
          | none => none
          | some pr => some (e :: pr.1, pr.2)

/-- `run_adding` (src/ffi.rs lines 224-297): prepare scratch buffers,
redirect audio outputs into them (clearing and refilling `ptr_storage`),
run the author's plugin on the redirected connection list inside
`call_user_code!` (context `"Plugin::run_adding"`), then mix every scratch
buffer into its saved host buffer scaled by `adding_gain` and restore the
views. `next` is the allocation watermark; `none` is a panic of the adapter
itself (an `unwrap` failure). -/
def run_adding (pr : PluginRun) (sc : Nat) (h : Handle) (m : Mem)
    (next : Nat) (log : List String) :
    Option (Handle × Mem × Nat × List String) :=
  let numOutputs := countOutputs (portsArg h)
  let prep := prepScratch sc numOutputs h.scratch_buffers m next
  match redirectPass sc h.port_map prep.1 with
  | none => none
  | some rd =>
      let h1 : Handle :=
        { h with
          port_map := rd.1
          scratch_buffers := prep.1
          ptr_storage := rd.2 }
      let res := pr sc (portsArg h1) prep.2.1
      let log1 :=
        match res.2 with
        | none => log
        | some _ => log ++ [errMsg ("Plugin::run_adding")]
      match mixPass sc h1.adding_gain rd.1 rd.2 prep.1 res.1 with
      | none => none
      | some mx =>
          some ({ h1 with port_map := mx.1 }, mx.2, prep.2.2, log1)

/-- Write the signal `c` into every audio-output view of a connection
list (the memory effect of a well-behaved author plugin). -/
def writeOutputs (c : Nat → Data) (sc : Nat) (ports : List PortConnection)
    (m : Mem) : Mem :=
  ports.foldl
    (fun acc p =>
      match p.data with
      | .audioOutput v => writeSig c v.base sc acc
      | _ => acc) m

/-- An author plugin that writes the signal `c` into every audio-output
view it is handed, sample by sample, and returns normally. -/
def writeConstPlugin (c : Nat → Data) : PluginRun :=
  fun sc ports m => (writeOutputs c sc ports m, none)

/-- An author plugin that panics at once (writes nothing). -/
def panicPlugin (msg : String) : PluginRun :=
  fun _ _ m => (m, some msg)

/-- An instrumentation plugin: records, at address 0, how many connections
it was handed. -/
def spyPlugin : PluginRun :=
  fun _ ports m => (memWrite m 0 (ports.length : Data), none)

/-! ### Host call sequences against one instance -/

/-- One host call on an instance (the entry points that mutate or read the
per-instance state). The author-code behaviour each call would execute is
carried in the operation itself. -/
inductive Op where
  | connect (port_num data_location : Nat)
  | runOp (pr : PluginRun) (sc : Nat)
  | runAddingOp (pr : PluginRun) (sc : Nat)
  | activateOp (author : Except String Unit)
  | deactivateOp (author : Except String Unit)
  | setGain (g : Data)

/-- Whether an operation is `set_run_adding_gain`. -/
def Op.isSetGain : Op → Bool
  | .setGain _ => true
  | _ => false

/-- The full mutable state around one instance: the handle, the flat
memory, the allocation watermark and the diagnostic log. -/
structure InstState where
  handle : Handle
  mem : Mem
  next : Nat
  log : List String

/-- Execute one host call; `none` is a panic of the adapter itself. -/
def stepOp (st : InstState) : Op → Option InstState
  | .connect k loc =>
      (connect_port st.handle k loc).map (fun h => { st with handle := h })
  | .runOp pr sc =>
      let r := run pr sc st.handle st.mem st.log
      some { st with handle := r.1, mem := r.2.1, log := r.2.2 }
  | .runAddingOp pr sc =>
      (run_adding pr sc st.handle st.mem st.next st.log).map
        (fun r => { handle := r.1, mem := r.2.1, next := r.2.2.1, log := r.2.2.2 })
  | .activateOp a =>
      let r := activate a st.handle st.log
      some { st with handle := r.1, log := r.2 }
  | .deactivateOp a =>
      let r := deactivate a st.handle st.log
      some { st with handle := r.1, log := r.2 }
  | .setGain g =>
      some { st with handle := set_run_adding_gain st.handle g }

/-- Execute a sequence of host calls. -/
def execOps : List Op → InstState → Option InstState
  | [], st => some st
  | op :: rest, st =>
      match stepOp st op with
      | none => none
      | some st1 => execOps rest st1

/-- The state right after `instantiate` (with a successful factory). -/
def freshInstState (ports : List Port) (m : Mem) (next : Nat) : InstState :=
  { handle := handleInit ports, mem := m, next := next, log := [] }

/-- Concrete two-port descriptor (an audio input and an audio output) used
by the concrete counterexamples and witnesses. -/
def exPortIn : Port :=
  { name := "in", desc := .AudioInput, hint := none, default := none
  , lower_bound := none, upper_bound := none }

/-- Concrete audio-output port. -/
def exPortOut : Port :=
  { name := "out", desc := .AudioOutput, hint := none, default := none
  , lower_bound := none, upper_bound := none }

/-- The audio-input connection `connect_port` builds for host address
100. -/
def exConnIn : PortConnection := ⟨exPortIn, .audioInput ⟨100, 0⟩⟩

/-- The audio-output connection `connect_port` builds for host address
200. -/
def exConnOut : PortConnection := ⟨exPortOut, .audioOutput ⟨200, 0⟩⟩

/-- A concrete fully connected instance of the two-port descriptor: the
audio input connected to host address 100, the audio output to host
address 200 (both still with the zero-length views `connect_port`
creates). -/
def exHandleFull : Handle :=
  { descPorts := [exPortIn, exPortOut]
  , port_map := [(0, exConnIn), (1, exConnOut)]
  , portsKeys := [0, 1]
  , adding_gain := 1
  , scratch_buffers := []
  , ptr_storage := [] }

/-- All-zero memory. -/
def memZero : Mem := fun _ => 0

/-- An author plugin that does nothing and returns normally. -/
def idPlugin : PluginRun := fun _ _ m => (m, none)

/-- An author `describe` that panics on every index. -/
def describePanic : Nat → Except String (Option PluginDescriptor) :=
  fun _ => .error ("boom")

/-- The connection list the author sees during `run_adding` of an instance
whose only audio output, sandwiched between the output-free entry lists
`A` and `B`, has been redirected to the scratch block at `base`. -/
def runAddingPortsList (sc : Nat) (A B : List (Nat × PortConnection))
    (p : Port) (base : Nat) : List PortConnection :=
  (refreshViews sc A).map Prod.snd ++
    ⟨p, .audioOutput ⟨base, sc⟩⟩ :: (refreshViews sc B).map Prod.snd

/-- The state invariant every reachable instance handle satisfies: the
`VecMap` keys are strictly sorted, every key is a valid port number, and
the stored `ports` reference list is either still the empty one from
`instantiate` or exactly the complete key list of a full map. -/
def HandleInv (h : Handle) : Prop :=
  List.Pairwise (· < ·) (h.port_map.map Prod.fst) ∧
  (∀ x ∈ h.port_map.map Prod.fst, x < h.descPorts.length) ∧
  (h.portsKeys = [] ∨
    (h.portsKeys = h.port_map.map Prod.fst ∧
     h.port_map.length = h.descPorts.length))

/-! ### Helper lemmas: flat memory -/

theorem memWrite_same (m : Mem) (a : Nat) (v : Data) : memWrite m a v a = v := by
  simp [memWrite]

theorem memWrite_ne (m : Mem) (a : Nat) (v : Data) (x : Nat) (h : x ≠ a) :
    memWrite m a v x = m x := by
  simp [memWrite, h]

theorem writeSig_out (c : Nat → Data) (base : Nat) (n : Nat) (m : Mem) (x : Nat)
    (h : ∀ j, j < n → x ≠ base + j) : writeSig c base n m x = m x := by
  induction n with
  | zero => rfl
  | succ k ih =>
      simp only [writeSig]
      rw [memWrite_ne _ _ _ _ (h k (Nat.lt_succ_self k))]
      exact ih (fun j hj => h j (Nat.lt_succ_of_lt hj))

theorem writeSig_in (c : Nat → Data) (base : Nat) (n : Nat) (m : Mem) (i : Nat)
    (h : i < n) : writeSig c base n m (base + i) = c i := by
  induction n with
  | zero => omega
  | succ k ih =>
      simp only [writeSig]
      rcases Nat.lt_succ_iff_lt_or_eq.mp h with h1 | h1
      · rw [memWrite_ne _ _ _ _ (by omega)]
        exact ih h1
      · subst h1; exact memWrite_same _ _ _

theorem copyGrow_out (m : Mem) (src dst oldLen n : Nat) (x : Nat)
    (h : ∀ j, j < n → x ≠ dst + j) : copyGrow m src dst oldLen n x = m x := by
  induction n with
  | zero => rfl
  | succ k ih =>
      simp only [copyGrow]
      rw [memWrite_ne _ _ _ _ (h k (Nat.lt_succ_self k))]
      exact ih (fun j hj => h j (Nat.lt_succ_of_lt hj))

theorem copyGrow_zero (m : Mem) (src dst n : Nat) (i : Nat) (h : i < n) :
    copyGrow m src dst 0 n (dst + i) = 0 := by
  induction n with
  | zero => omega
  | succ k ih =>
      simp only [copyGrow]
      rcases Nat.lt_succ_iff_lt_or_eq.mp h with h1 | h1
      · rw [memWrite_ne _ _ _ _ (by omega)]
        exact ih h1
      · subst h1
        rw [memWrite_same]
        simp

theorem mixInto_out (m : Mem) (hb sb : Nat) (g : Data) (n : Nat) (x : Nat)
    (h : ∀ j, j < n → x ≠ hb + j) : mixInto m hb sb g n x = m x := by
  induction n with
  | zero => rfl
  | succ k ih =>
      simp only [mixInto]
      rw [memWrite_ne _ _ _ _ (h k (Nat.lt_succ_self k))]
      exact ih (fun j hj => h j (Nat.lt_succ_of_lt hj))

/-- With the host range `[hb, hb+n)` and the scratch range `[sb, sb+n)`
disjoint, each mixed host sample is exactly
`original + scratch · gain`. -/
theorem mixInto_at (m : Mem) (hb sb : Nat) (g : Data) (n : Nat)
    (hd : ∀ i j, i < n → j < n → hb + i ≠ sb + j) (i : Nat) (h : i < n) :
    mixInto m hb sb g n (hb + i) = m (hb + i) + m (sb + i) * g := by
  induction n with
  | zero => omega
  | succ k ih =>
      simp only [mixInto]
      rcases Nat.lt_succ_iff_lt_or_eq.mp h with h1 | h1
      · rw [memWrite_ne _ _ _ _ (by omega)]
        exact ih (fun a b ha hb2 => hd a b (Nat.lt_succ_of_lt ha) (Nat.lt_succ_of_lt hb2)) h1
      · subst h1
        rw [memWrite_same]
        rw [mixInto_out m hb sb g i _ (fun j hj => by omega)]
        rw [mixInto_out m hb sb g i _ (fun j hj => ?_)]
        exact fun hcon =>
          hd j i (Nat.lt_succ_of_lt hj) (Nat.lt_succ_self i) hcon.symm

/-! ### Helper lemmas: the port map and the author-visible list -/

theorem vmLookup_cons (k : Nat) (e : Nat × PortConnection)
    (rest : List (Nat × PortConnection)) :
    vmLookup k (e :: rest) = if k = e.1 then some e.2 else vmLookup k rest := rfl

/-- When the stored reference keys are exactly the map's keys (no
duplicates), resolving them yields exactly the map's values in order. -/
theorem filterMap_lookup_self (pm : List (Nat × PortConnection))
    (hnd : (pm.map Prod.fst).Nodup) :
    (pm.map Prod.fst).filterMap (fun k => vmLookup k pm) = pm.map Prod.snd := by
  induction pm with
  | nil => rfl
  | cons e rest ih =>
      simp only [List.map_cons] at hnd
      have hne : e.1 ∉ rest.map Prod.fst := (List.nodup_cons.mp hnd).1
      have hnd2 : (rest.map Prod.fst).Nodup := (List.nodup_cons.mp hnd).2
      have hself : vmLookup e.1 (e :: rest) = some e.2 := by
        rw [vmLookup_cons]; simp
      have hcongr :
          (rest.map Prod.fst).filterMap (fun k => vmLookup k (e :: rest)) =
            (rest.map Prod.fst).filterMap (fun k => vmLookup k rest) := by
        apply List.filterMap_congr
        intro k hk
        rw [vmLookup_cons]
        have hk1 : k ≠ e.1 := by
          intro hcon; exact hne (hcon ▸ hk)
        simp [hk1]
      simp only [List.map_cons, List.filterMap_cons, hself, hcongr, ih hnd2]

theorem refreshViews_fst (sc : Nat) (pm : List (Nat × PortConnection)) :
    (refreshViews sc pm).map Prod.fst = pm.map Prod.fst := by
  simp [refreshViews]

theorem vmLookup_refresh (k : Nat) (sc : Nat) (pm : List (Nat × PortConnection)) :
    vmLookup k (refreshViews sc pm) = (vmLookup k pm).map (refreshConn sc) := by
  induction pm with
  | nil => rfl
  | cons e rest ih =>
      simp only [refreshViews, List.map_cons] at *
      rw [vmLookup_cons, vmLookup_cons]
      by_cases h : k = e.1
      · simp [h]
      · simp only [h, if_false]
        exact ih

theorem vmLookup_append_left_none (k : Nat) (L R : List (Nat × PortConnection))
    (h : k ∉ L.map Prod.fst) : vmLookup k (L ++ R) = vmLookup k R := by
  induction L with
  | nil => rfl
  | cons e rest ih =>
      simp only [List.map_cons, List.mem_cons] at h
      push_neg at h
      simp only [List.cons_append]
      rw [vmLookup_cons]
      simp only [h.1, if_false]
      exact ih h.2

theorem isOutputConn_refresh (sc : Nat) (c : PortConnection) :
    isOutputConn (refreshConn sc c) = isOutputConn c := by
  cases hc : c.data <;> simp [refreshConn, isOutputConn, hc]

theorem refreshViews_noOutput (sc : Nat) (A : List (Nat × PortConnection))
    (h : ∀ e ∈ A, isOutputConn e.2 = false) :
    ∀ e ∈ refreshViews sc A, isOutputConn e.2 = false := by
  intro e he
  simp only [refreshViews, List.mem_map] at he
  obtain ⟨a, ha, rfl⟩ := he
  simpa [isOutputConn_refresh] using h a ha

/-! ### Helper lemmas: the two run_adding passes -/

theorem redirectPass_nil (sc : Nat) (scratch : List SliceView) :
    redirectPass sc [] scratch = some ([], []) := rfl

theorem redirectPass_cons_output (sc : Nat) (e : Nat × PortConnection)
    (rest : List (Nat × PortConnection)) (v : SliceView) (s : SliceView)
    (srest : List SliceView) (hv : e.2.data = .audioOutput v) :
    redirectPass sc (e :: rest) (s :: srest) =
      (redirectPass sc rest srest).map
        (fun p => ((e.1, { e.2 with data := .audioOutput ⟨s.base, sc⟩ }) :: p.1,
                   v.base :: p.2)) := by
  simp only [redirectPass, hv]
  cases redirectPass sc rest srest <;> rfl

theorem redirectPass_cons_input (sc : Nat) (e : Nat × PortConnection)
    (rest : List (Nat × PortConnection)) (v : SliceView)
    (scratch : List SliceView) (hv : e.2.data = .audioInput v) :
    redirectPass sc (e :: rest) scratch =
      (redirectPass sc rest scratch).map
        (fun p => ((e.1, { e.2 with data := .audioInput ⟨v.base, sc⟩ }) :: p.1,
                   p.2)) := by
  simp only [redirectPass, hv]
  cases redirectPass sc rest scratch <;> rfl

theorem redirectPass_cons_controlIn (sc : Nat) (e : Nat × PortConnection)
    (rest : List (Nat × PortConnection)) (a : Nat)
    (scratch : List SliceView) (hv : e.2.data = .controlInput a) :
    redirectPass sc (e :: rest) scratch =
      (redirectPass sc rest scratch).map (fun p => (e :: p.1, p.2)) := by
  simp only [redirectPass, hv]
  cases redirectPass sc rest scratch <;> rfl

theorem redirectPass_cons_controlOut (sc : Nat) (e : Nat × PortConnection)
    (rest : List (Nat × PortConnection)) (a : Nat)
    (scratch : List SliceView) (hv : e.2.data = .controlOutput a) :
    redirectPass sc (e :: rest) scratch =
      (redirectPass sc rest scratch).map (fun p => (e :: p.1, p.2)) := by
  simp only [redirectPass, hv]
  cases redirectPass sc rest scratch <;> rfl

theorem redirectPass_noOutput_append (sc : Nat) (A rest : List (Nat × PortConnection))
    (scratch : List SliceView) (hA : ∀ e ∈ A, isOutputConn e.2 = false) :
    redirectPass sc (A ++ rest) scratch =
      (redirectPass sc rest scratch).map
        (fun p => (refreshViews sc A ++ p.1, p.2)) := by
  induction A generalizing scratch with
  | nil =>
      simp only [List.nil_append]
      cases redirectPass sc rest scratch <;> rfl
  | cons e tl ih =>
      have he : isOutputConn e.2 = false := hA e (List.mem_cons_self e tl)
      have htl : ∀ x ∈ tl, isOutputConn x.2 = false :=
        fun x hx => hA x (List.mem_cons_of_mem e hx)
      simp only [List.cons_append]
      cases hd : e.2.data with
      | audioOutput v => simp [isOutputConn, hd] at he
      | audioInput v =>
          rw [redirectPass_cons_input sc e (tl ++ rest) v scratch hd, ih scratch htl]
          cases redirectPass sc rest scratch with
          | none => rfl
          | some p =>
              simp only [Option.map_some']
              have hrv : refreshViews sc (e :: tl) =
                  (e.1, { e.2 with data := .audioInput ⟨v.base, sc⟩ }) :: refreshViews sc tl := by
                simp [refreshViews, refreshConn, hd]
              rw [hrv, List.cons_append]
      | controlInput a =>
          rw [redirectPass_cons_controlIn sc e (tl ++ rest) a scratch hd, ih scratch htl]
          cases redirectPass sc rest scratch with
          | none => rfl
          | some p =>
              simp only [Option.map_some']
              have hrv : refreshViews sc (e :: tl) = e :: refreshViews sc tl := by
                simp [refreshViews, refreshConn, hd]
              rw [hrv, List.cons_append]
      | controlOutput a =>
          rw [redirectPass_cons_controlOut sc e (tl ++ rest) a scratch hd, ih scratch htl]
          cases redirectPass sc rest scratch with
          | none => rfl
          | some p =>
              simp only [Option.map_some']
              have hrv : refreshViews sc (e :: tl) = e :: refreshViews sc tl := by
                simp [refreshViews, refreshConn, hd]
              rw [hrv, List.cons_append]

theorem mixPass_nil (sc : Nat) (g : Data) (storage : List Nat)
    (scratch : List SliceView) (m : Mem) :
    mixPass sc g [] storage scratch m = some ([], m) := rfl

theorem mixPass_cons_output (sc : Nat) (g : Data) (e : Nat × PortConnection)
    (rest : List (Nat × PortConnection)) (v : SliceView) (hp : Nat)
    (hrest : List Nat) (s : SliceView) (srest : List SliceView) (m : Mem)
    (hv : e.2.data = .audioOutput v) :
    mixPass sc g (e :: rest) (hp :: hrest) (s :: srest) m =
      (mixPass sc g rest hrest srest (mixInto m hp s.base g sc)).map
        (fun p => ((e.1, { e.2 with data := .audioOutput ⟨hp, sc⟩ }) :: p.1, p.2)) := by
  simp only [mixPass, hv]
  cases mixPass sc g rest hrest srest (mixInto m hp s.base g sc) <;> rfl

theorem mixPass_cons_noOutput (sc : Nat) (g : Data)
    (e : Nat × PortConnection) (rest : List (Nat × PortConnection))
    (storage : List Nat) (scratch : List SliceView) (m : Mem)
    (he : isOutputConn e.2 = false) :
    mixPass sc g (e :: rest) storage scratch m =
      (mixPass sc g rest storage scratch m).map
        (fun p => (e :: p.1, p.2)) := by
  cases hd : e.2.data with
  | audioOutput v => simp [isOutputConn, hd] at he
  | audioInput v =>
      simp only [mixPass, hd]
      cases mixPass sc g rest storage scratch m <;> rfl
  | controlInput a =>
      simp only [mixPass, hd]
      cases mixPass sc g rest storage scratch m <;> rfl
  | controlOutput a =>
      simp only [mixPass, hd]
      cases mixPass sc g rest storage scratch m <;> rfl

theorem mixPass_noOutput_append (sc : Nat) (g : Data)
    (A rest : List (Nat × PortConnection)) (storage : List Nat)
    (scratch : List SliceView) (m : Mem)
    (hA : ∀ e ∈ A, isOutputConn e.2 = false) :
    mixPass sc g (A ++ rest) storage scratch m =
      (mixPass sc g rest storage scratch m).map
        (fun p => (A ++ p.1, p.2)) := by
  induction A with
  | nil =>
      simp only [List.nil_append]
      cases mixPass sc g rest storage scratch m <;> rfl
  | cons e tl ih =>
      have he : isOutputConn e.2 = false := hA e (List.mem_cons_self e tl)
      have htl : ∀ x ∈ tl, isOutputConn x.2 = false :=
        fun x hx => hA x (List.mem_cons_of_mem e hx)
      simp only [List.cons_append]
      cases hd : e.2.data with
      | audioOutput v => simp [isOutputConn, hd] at he
      | audioInput v =>
          simp only [mixPass, hd, ih htl]
          cases mixPass sc g rest storage scratch m <;> rfl
      | controlInput a =>
          simp only [mixPass, hd, ih htl]
          cases mixPass sc g rest storage scratch m <;> rfl
      | controlOutput a =>
          simp only [mixPass, hd, ih htl]
          cases mixPass sc g rest storage scratch m <;> rfl

theorem writeOutputs_noOutput_append (c : Nat → Data) (sc : Nat)
    (A rest : List PortConnection) (m : Mem)
    (hA : ∀ p ∈ A, isOutputConn p = false) :
    writeOutputs c sc (A ++ rest) m = writeOutputs c sc rest m := by
  induction A generalizing m with
  | nil => rfl
  | cons p tl ih =>
      have hp : isOutputConn p = false := hA p (List.mem_cons_self p tl)
      have htl : ∀ x ∈ tl, isOutputConn x = false :=
        fun x hx => hA x (List.mem_cons_of_mem p hx)
      simp only [List.cons_append, writeOutputs, List.foldl_cons]
      cases hd : p.data with
      | audioOutput v => simp [isOutputConn, hd] at hp
      | audioInput v => exact ih m htl
      | controlInput a => exact ih m htl
      | controlOutput a => exact ih m htl

theorem writeOutputs_single (c : Nat → Data) (sc : Nat)
    (A B : List PortConnection) (out : PortConnection) (v : SliceView) (m : Mem)
    (hA : ∀ p ∈ A, isOutputConn p = false)
    (hB : ∀ p ∈ B, isOutputConn p = false)
    (hout : out.data = .audioOutput v) :
    writeOutputs c sc (A ++ out :: B) m = writeSig c v.base sc m := by
  rw [writeOutputs_noOutput_append c sc A (out :: B) m hA]
  simp only [writeOutputs, List.foldl_cons, hout]
  have := writeOutputs_noOutput_append c sc B [] (writeSig c v.base sc m) hB
  simpa [writeOutputs] using this

theorem countOutputs_single (A B : List PortConnection) (out : PortConnection)
    (hA : ∀ p ∈ A, isOutputConn p = false)
    (hB : ∀ p ∈ B, isOutputConn p = false)
    (hout : isOutputConn out = true) :
    countOutputs (A ++ out :: B) = 1 := by
  have h1 : A.filter isOutputConn = [] :=
    List.filter_eq_nil_iff.mpr (fun a ha => by simp [hA a ha])
  have h2 : B.filter isOutputConn = [] :=
    List.filter_eq_nil_iff.mpr (fun a ha => by simp [hB a ha])
  simp [countOutputs, List.filter_append, List.filter_cons, hout, h1, h2]

theorem prepScratch_one (sc : Nat) (m : Mem) (next : Nat) (hpos : 0 < sc) :
    prepScratch sc 1 [] m next =
      ([⟨next, sc⟩], copyGrow m 0 next 0 sc, next + sc) := by
  simp [prepScratch, growAll, growBuf, hpos]

/-- The complete symbolic execution of `run_adding` on an instance whose
single audio output (between the output-free entry lists `A` and `B`) is
connected to host base `b`, with an empty scratch pool: one scratch block
of `sc` samples is allocated at `next` and zero-filled, the output view is
redirected there, the author plugin `pr` runs on the redirected list, the
scratch contents are mixed into the host buffer scaled by `g`, and the
output view is restored to `⟨b, sc⟩`. -/
theorem run_adding_single (pr : PluginRun) (A B : List (Nat × PortConnection))
    (k b l next sc : Nat) (g : Data) (m : Mem) (log : List String)
    (dp : List Port) (ptrs : List Nat) (out : PortConnection)
    (hout : out.data = .audioOutput ⟨b, l⟩)
    (hA : ∀ e ∈ A, isOutputConn e.2 = false)
    (hB : ∀ e ∈ B, isOutputConn e.2 = false)
    (hnd : ((A ++ (k, out) :: B).map Prod.fst).Nodup)
    (hpos : 0 < sc) :
    run_adding pr sc
      ⟨dp, A ++ (k, out) :: B, (A ++ (k, out) :: B).map Prod.fst, g, [], ptrs⟩
      m next log =
      some
        (⟨dp,
          refreshViews sc A ++
            (k, ⟨out.port, .audioOutput ⟨b, sc⟩⟩) :: refreshViews sc B,
          (A ++ (k, out) :: B).map Prod.fst, g, [⟨next, sc⟩], [b]⟩,
         mixInto
           (pr sc (runAddingPortsList sc A B out.port next)
              (copyGrow m 0 next 0 sc)).1 b next g sc,
         next + sc,
         match (pr sc (runAddingPortsList sc A B out.port next)
                  (copyGrow m 0 next 0 sc)).2 with
         | none => log
         | some _ => log ++ [errMsg ("Plugin::run_adding")]) := by
  have houtb : isOutputConn out = true := by simp [isOutputConn, hout]
  have hAm : ∀ p ∈ A.map Prod.snd, isOutputConn p = false := by
    intro p hp
    obtain ⟨e, he, rfl⟩ := List.mem_map.mp hp
    exact hA e he
  have hBm : ∀ p ∈ B.map Prod.snd, isOutputConn p = false := by
    intro p hp
    obtain ⟨e, he, rfl⟩ := List.mem_map.mp hp
    exact hB e he
  have hports0 :
      portsArg ⟨dp, A ++ (k, out) :: B,
        (A ++ (k, out) :: B).map Prod.fst, g, [], ptrs⟩ =
      (A ++ (k, out) :: B).map Prod.snd :=
    filterMap_lookup_self (A ++ (k, out) :: B) hnd
  have hcount : countOutputs ((A ++ (k, out) :: B).map Prod.snd) = 1 := by
    rw [List.map_append, List.map_cons]
    exact countOutputs_single _ _ _ hAm hBm houtb
  have hred : redirectPass sc (A ++ (k, out) :: B) [⟨next, sc⟩] =
      some (refreshViews sc A ++
              (k, { out with data := .audioOutput ⟨next, sc⟩ }) ::
                refreshViews sc B, [b]) := by
    rw [redirectPass_noOutput_append sc A ((k, out) :: B) _ hA]
    rw [redirectPass_cons_output sc (k, out) B ⟨b, l⟩ ⟨next, sc⟩ [] hout]
    have hBr : redirectPass sc B [] = some (refreshViews sc B, []) := by
      have h0 := redirectPass_noOutput_append sc B [] [] hB
      simpa [redirectPass_nil] using h0
    rw [hBr]
    rfl
  have hfst1 :
      ((refreshViews sc A ++
          (k, { out with data := PortData.audioOutput ⟨next, sc⟩ }) ::
            refreshViews sc B).map Prod.fst) =
        (A ++ (k, out) :: B).map Prod.fst := by
    simp [List.map_append, List.map_cons, refreshViews_fst]
  have hnd1 :
      ((refreshViews sc A ++
          (k, { out with data := PortData.audioOutput ⟨next, sc⟩ }) ::
            refreshViews sc B).map Prod.fst).Nodup := by
    rw [hfst1]; exact hnd
  have hports1 :
      portsArg ⟨dp,
        refreshViews sc A ++
          (k, { out with data := PortData.audioOutput ⟨next, sc⟩ }) ::
            refreshViews sc B,
        (A ++ (k, out) :: B).map Prod.fst, g, [⟨next, sc⟩], [b]⟩ =
      runAddingPortsList sc A B out.port next := by
    have hstep :
        ((A ++ (k, out) :: B).map Prod.fst).filterMap
          (fun kk => vmLookup kk
            (refreshViews sc A ++
              (k, { out with data := PortData.audioOutput ⟨next, sc⟩ }) ::
                refreshViews sc B)) =
        (refreshViews sc A ++
          (k, { out with data := PortData.audioOutput ⟨next, sc⟩ }) ::
            refreshViews sc B).map Prod.snd := by
      rw [← hfst1]
      exact filterMap_lookup_self _ hnd1
    have hfin :
        (refreshViews sc A ++
          (k, { out with data := PortData.audioOutput ⟨next, sc⟩ }) ::
            refreshViews sc B).map Prod.snd =
          runAddingPortsList sc A B out.port next := by
      simp [runAddingPortsList, List.map_append, List.map_cons]
    exact hstep.trans hfin
  have hmix : ∀ mm : Mem,
      mixPass sc g
        (refreshViews sc A ++
          (k, { out with data := PortData.audioOutput ⟨next, sc⟩ }) ::
            refreshViews sc B) [b] [⟨next, sc⟩] mm =
      some (refreshViews sc A ++
              (k, ⟨out.port, .audioOutput ⟨b, sc⟩⟩) :: refreshViews sc B,
            mixInto mm b next g sc) := by
    intro mm
    rw [mixPass_noOutput_append sc g (refreshViews sc A) _ [b] [⟨next, sc⟩] mm
          (refreshViews_noOutput sc A hA)]
    rw [mixPass_cons_output sc g
          (k, { out with data := PortData.audioOutput ⟨next, sc⟩ })
          (refreshViews sc B) ⟨next, sc⟩ b [] ⟨next, sc⟩ [] mm rfl]
    have hBmix :
        mixPass sc g (refreshViews sc B) [] [] (mixInto mm b next g sc) =
          some (refreshViews sc B, mixInto mm b next g sc) := by
      have h0 := mixPass_noOutput_append sc g (refreshViews sc B) [] [] []
        (mixInto mm b next g sc) (refreshViews_noOutput sc B hB)
      simpa [mixPass_nil] using h0
    rw [hBmix]
    rfl
  simp only [run_adding, hports0, hcount, prepScratch_one sc m next hpos, hred,
    hports1, hmix]

theorem refreshViews_snd_noOutput (sc : Nat) (A : List (Nat × PortConnection))
    (hA : ∀ e ∈ A, isOutputConn e.2 = false) :
    ∀ p ∈ (refreshViews sc A).map Prod.snd, isOutputConn p = false := by
  intro p hp
  obtain ⟨e, he, rfl⟩ := List.mem_map.mp hp
  exact refreshViews_noOutput sc A hA e he

/-- What the well-behaved single-output author plugin computes on the
redirected list: it fills the scratch block. -/
theorem writeConst_on_single (c : Nat → Data) (sc : Nat)
    (A B : List (Nat × PortConnection)) (p : Port) (base : Nat) (m : Mem)
    (hA : ∀ e ∈ A, isOutputConn e.2 = false)
    (hB : ∀ e ∈ B, isOutputConn e.2 = false) :
    writeConstPlugin c sc (runAddingPortsList sc A B p base) m =
      (writeSig c base sc m, none) := by
  simp only [writeConstPlugin, runAddingPortsList]
  rw [writeOutputs_single c sc _ _ _ ⟨base, sc⟩ m
        (refreshViews_snd_noOutput sc A hA)
        (refreshViews_snd_noOutput sc B hB) rfl]

/-- The final memory of the symbolic single-output `run_adding` with the
well-behaved plugin: each host sample becomes `original + c i · gain`. -/
theorem mix_write_mem (c : Nat → Data) (m : Mem) (b next sc : Nat) (g : Data)
    (hdisj : b + sc ≤ next) (i : Nat) (hi : i < sc) :
    mixInto (writeSig c next sc (copyGrow m 0 next 0 sc)) b next g sc (b + i) =
      m (b + i) + c i * g := by
  have hsep : ∀ x j : Nat, x < sc → j < sc → b + x ≠ next + j := by
    intro x j hx hj
    omega
  rw [mixInto_at _ b next g sc hsep i hi]
  rw [writeSig_in c next sc _ i hi]
  rw [writeSig_out c next sc _ (b + i) (fun j hj => hsep i j hi hj)]
  rw [copyGrow_out m 0 next 0 sc (b + i) (fun j hj => hsep i j hi hj)]

/-- C3: For every instance with all ports connected whose single audio
output (entry lists `A`, `B` around it hold no other audio output) is
connected to the host buffer at base `b`, every sample count `sc > 0`,
every initial host memory `m` and every gain `g`: after
`run_adding` with an author plugin that writes `c i` to its audio output,
the host sample at `b + i` equals `m (b + i) + c i * g` for all `i < sc`,
and the audio-output connection's view afterwards again refers to the
original host base `b` (so a later plain `run` writes to host memory, not
to the scratch block at `next`). The scratch pool is the empty one
`instantiate` creates, `next` (the allocator watermark) lies beyond the
host buffer, and the map keys are distinct as `VecMap` guarantees. -/
theorem c3_run_adding_mixes_and_restores (c : Nat → Data)
    (A B : List (Nat × PortConnection)) (k b l next sc : Nat) (g : Data)
    (m : Mem) (log : List String) (dp : List Port) (ptrs : List Nat)
    (out : PortConnection)
    (hout : out.data = .audioOutput ⟨b, l⟩)
    (hA : ∀ e ∈ A, isOutputConn e.2 = false)
    (hB : ∀ e ∈ B, isOutputConn e.2 = false)
    (hnd : ((A ++ (k, out) :: B).map Prod.fst).Nodup)
    (hpos : 0 < sc) (hdisj : b + sc ≤ next) :
    (∀ i, i < sc →
      (run_adding (writeConstPlugin c) sc
          ⟨dp, A ++ (k, out) :: B, (A ++ (k, out) :: B).map Prod.fst, g, [],
            ptrs⟩ m next log).map (fun r => r.2.1 (b + i)) =
        some (m (b + i) + c i * g)) ∧
    (run_adding (writeConstPlugin c) sc
        ⟨dp, A ++ (k, out) :: B, (A ++ (k, out) :: B).map Prod.fst, g, [],
          ptrs⟩ m next log).map (fun r => vmLookup k r.1.port_map) =
      some (some ⟨out.port, .audioOutput ⟨b, sc⟩⟩) := by
  have hrun := run_adding_single (writeConstPlugin c) A B k b l next sc g m
    log dp ptrs out hout hA hB hnd hpos
  rw [writeConst_on_single c sc A B out.port next (copyGrow m 0 next 0 sc) hA hB]
    at hrun
  constructor
  · intro i hi
    rw [hrun]
    simp only [Option.map_some']
    rw [mix_write_mem c m b next sc g hdisj i hi]
  · rw [hrun]
    simp only [Option.map_some']
    congr 1
    have hkA : k ∉ (refreshViews sc A).map Prod.fst := by
      rw [refreshViews_fst]
      have hsplit := List.nodup_append.mp (by simpa using hnd)
      intro hmem
      exact hsplit.2.2 hmem (List.mem_cons_self k _)
    rw [vmLookup_append_left_none k _ _ hkA]
    rw [vmLookup_cons]
    simp

/-- Witness for C3 at a concrete instance: two ports (audio input at host
base 100, audio output at host base 200), sample count 2, gain 3, the
plugin writing the constant signal 5, zero initial memory, scratch
watermark 1000: the mixed host sample is `0 + 5 * 3`. -/
theorem c3_witness :
    (run_adding (writeConstPlugin (fun _ => 5)) 2
        ⟨[exPortIn, exPortOut],
          [(0, exConnIn)] ++ (1, exConnOut) :: [],
          ([(0, exConnIn)] ++ (1, exConnOut) :: []).map Prod.fst,
          3, [], []⟩ memZero 1000 []).map (fun r => r.2.1 (200 + 1)) =
      some (memZero (200 + 1) + 5 * 3) :=
  (c3_run_adding_mixes_and_restores (fun _ => 5)
    [(0, exConnIn)] [] 1 200 0 1000 2 3 memZero []
    [exPortIn, exPortOut] [] exConnOut (by decide)
    (by decide) (by decide) (by decide) (by decide) (by decide)).1 1 (by decide)

/-- C7: `set_run_adding_gain(instance, gain)` stores the gain factor and
changes no other instance state; a plain `run` is unaffected by the stored
gain (same memory effect and same log, the handle differing only in the
gain field); and the stored gain is the factor the next `run_adding` mixes
with: in the single-audio-output setting, after `set_run_adding_gain` to
`gnew` the host sample becomes `m (b + i) + c i * gnew`. -/
theorem c7_set_gain_stores_and_scopes :
    (∀ (h : Handle) (g : Data),
      (set_run_adding_gain h g).adding_gain = g ∧
      (set_run_adding_gain h g).descPorts = h.descPorts ∧
      (set_run_adding_gain h g).port_map = h.port_map ∧
      (set_run_adding_gain h g).portsKeys = h.portsKeys ∧
      (set_run_adding_gain h g).scratch_buffers = h.scratch_buffers ∧
      (set_run_adding_gain h g).ptr_storage = h.ptr_storage) ∧
    (∀ (h : Handle) (g : Data) (pr : PluginRun) (sc : Nat) (m : Mem)
        (log : List String),
      run pr sc (set_run_adding_gain h g) m log =
        (set_run_adding_gain (run pr sc h m log).1 g,
         (run pr sc h m log).2.1, (run pr sc h m log).2.2)) ∧
    (∀ (c : Nat → Data) (A B : List (Nat × PortConnection))
        (k b l next sc : Nat) (g0 gnew : Data) (m : Mem) (log : List String)
        (dp : List Port) (ptrs : List Nat) (out : PortConnection),
      out.data = .audioOutput ⟨b, l⟩ →
      (∀ e ∈ A, isOutputConn e.2 = false) →
      (∀ e ∈ B, isOutputConn e.2 = false) →
      ((A ++ (k, out) :: B).map Prod.fst).Nodup →
      0 < sc → b + sc ≤ next →
      ∀ i, i < sc →
        (run_adding (writeConstPlugin c) sc
            (set_run_adding_gain
              ⟨dp, A ++ (k, out) :: B, (A ++ (k, out) :: B).map Prod.fst, g0,
                [], ptrs⟩ gnew) m next log).map (fun r => r.2.1 (b + i)) =
          some (m (b + i) + c i * gnew)) := by
  refine ⟨?_, ?_, ?_⟩
  · intro h g
    exact ⟨rfl, rfl, rfl, rfl, rfl, rfl⟩
  · intro h g pr sc m log
    rfl
  · intro c A B k b l next sc g0 gnew m log dp ptrs out hout hA hB hnd hpos hdisj i hi
    have hset :
        set_run_adding_gain
          ⟨dp, A ++ (k, out) :: B, (A ++ (k, out) :: B).map Prod.fst, g0, [],
            ptrs⟩ gnew =
          ⟨dp, A ++ (k, out) :: B, (A ++ (k, out) :: B).map Prod.fst, gnew, [],
            ptrs⟩ := rfl
    rw [hset]
    have hrun := run_adding_single (writeConstPlugin c) A B k b l next sc gnew
      m log dp ptrs out hout hA hB hnd hpos
    rw [writeConst_on_single c sc A B out.port next (copyGrow m 0 next 0 sc)
          hA hB] at hrun
    rw [hrun]
    simp only [Option.map_some']
    rw [mix_write_mem c m b next sc gnew hdisj i hi]

/-- Witness for C7: the three conjuncts at concrete inputs — setting gain 7
on the fully connected example instance, a plain `run` of the identity
plugin, and a `run_adding` after `set_run_adding_gain` to 7 mixing
`0 + 5 * 7` into host address 200. -/
theorem c7_witness :
    ((set_run_adding_gain exHandleFull 7).adding_gain = 7 ∧
     (set_run_adding_gain exHandleFull 7).descPorts = exHandleFull.descPorts ∧
     (set_run_adding_gain exHandleFull 7).port_map = exHandleFull.port_map ∧
     (set_run_adding_gain exHandleFull 7).portsKeys = exHandleFull.portsKeys ∧
     (set_run_adding_gain exHandleFull 7).scratch_buffers =
       exHandleFull.scratch_buffers ∧
     (set_run_adding_gain exHandleFull 7).ptr_storage =
       exHandleFull.ptr_storage) ∧
    (run idPlugin 4 (set_run_adding_gain exHandleFull 7) memZero [] =
      (set_run_adding_gain (run idPlugin 4 exHandleFull memZero []).1 7,
       (run idPlugin 4 exHandleFull memZero []).2.1,
       (run idPlugin 4 exHandleFull memZero []).2.2)) ∧
    (run_adding (writeConstPlugin (fun _ => 5)) 2
        (set_run_adding_gain
          ⟨[exPortIn, exPortOut], [(0, exConnIn)] ++ (1, exConnOut) :: [],
            ([(0, exConnIn)] ++ (1, exConnOut) :: []).map Prod.fst, 1, [], []⟩
          7) memZero 1000 []).map (fun r => r.2.1 (200 + 0)) =
      some (memZero (200 + 0) + 5 * 7) :=
  ⟨c7_set_gain_stores_and_scopes.1 exHandleFull 7,
   c7_set_gain_stores_and_scopes.2.1 exHandleFull 7 idPlugin 4 memZero [],
   c7_set_gain_stores_and_scopes.2.2 (fun _ => 5) [(0, exConnIn)] [] 1 200 0
     1000 2 1 7 memZero [] [exPortIn, exPortOut] [] exConnOut (by decide)
     (by decide) (by decide) (by decide) (by decide) (by decide) 0 (by decide)⟩

/-- C4: every host entry point that executes author code isolates an
author panic: the descriptor lookup returns null, logs the diagnostic
labelled `get_ladspa_descriptor` and caches nothing; `instantiate` returns
a null handle and logs its (fixed) label `PluginDescriptor::run`;
`activate`/`deactivate` become no-ops and log their labels; a `run` whose
plugin panics still returns its well-defined result (refreshed views, the
memory written so far, the diagnostic labelled `Plugin::run`) instead of
propagating, and a following `run` with a healthy plugin executes
normally with no further diagnostic; a `run_adding` whose plugin panics
completes the mixing and restore step and logs `Plugin::run_adding`; and
the six diagnostic labels are pairwise distinct, so the diagnostic
identifies which operation failed. -/
theorem c4_failure_isolation :
    (∀ (d : Nat → Except String (Option PluginDescriptor)) (idx : Nat)
        (st : RegState) (log : List String) (e : String),
      d idx = .error e → st.cache.length ≤ idx →
      (ladspa_descriptor d idx st log).result = none ∧
      (ladspa_descriptor d idx st log).log =
        log ++ [errMsg ("get_ladspa_descriptor")] ∧
      (ladspa_descriptor d idx st log).state.cache = st.cache) ∧
    (∀ (ports : List Port) (e : String) (log : List String),
      instantiate ports (.error e) log =
        (none, log ++ [errMsg ("PluginDescriptor::run")])) ∧
    (∀ (h : Handle) (log : List String) (e : String),
      activate (.error e) h log = (h, log ++ [errMsg ("Plugin::activate")]) ∧
      deactivate (.error e) h log =
        (h, log ++ [errMsg ("Plugin::deactivate")])) ∧
    (∀ (pr : PluginRun) (sc : Nat) (h : Handle) (m : Mem) (log : List String)
        (msg : String),
      (pr sc (portsArg { h with port_map := refreshViews sc h.port_map }) m).2 =
        some msg →
      run pr sc h m log =
        ({ h with port_map := refreshViews sc h.port_map },
         (pr sc (portsArg { h with port_map := refreshViews sc h.port_map }) m).1,
         log ++ [errMsg ("Plugin::run")])) ∧
    (∀ (pr : PluginRun) (sc : Nat) (h : Handle) (m : Mem) (log : List String),
      (pr sc (portsArg { h with port_map := refreshViews sc h.port_map }) m).2 =
        none →
      run pr sc h m log =
        ({ h with port_map := refreshViews sc h.port_map },
         (pr sc (portsArg { h with port_map := refreshViews sc h.port_map }) m).1,
         log)) ∧
    (∀ (msg : String) (A B : List (Nat × PortConnection))
        (k b l next sc : Nat) (g : Data) (m : Mem) (log : List String)
        (dp : List Port) (ptrs : List Nat) (out : PortConnection),
      out.data = .audioOutput ⟨b, l⟩ →
      (∀ e ∈ A, isOutputConn e.2 = false) →
      (∀ e ∈ B, isOutputConn e.2 = false) →
      ((A ++ (k, out) :: B).map Prod.fst).Nodup →
      0 < sc →
      run_adding (panicPlugin msg) sc
          ⟨dp, A ++ (k, out) :: B, (A ++ (k, out) :: B).map Prod.fst, g, [],
            ptrs⟩ m next log =
        some
          (⟨dp,
            refreshViews sc A ++
              (k, ⟨out.port, .audioOutput ⟨b, sc⟩⟩) :: refreshViews sc B,
            (A ++ (k, out) :: B).map Prod.fst, g, [⟨next, sc⟩], [b]⟩,
           mixInto (copyGrow m 0 next 0 sc) b next g sc, next + sc,
           log ++ [errMsg ("Plugin::run_adding")])) ∧
    ([errMsg ("get_ladspa_descriptor"), errMsg ("PluginDescriptor::run"),
      errMsg ("Plugin::activate"), errMsg ("Plugin::run"),
      errMsg ("Plugin::run_adding"), errMsg ("Plugin::deactivate")].Nodup) := by
  refine ⟨?_, ?_, ?_, ?_, ?_, ?_, ?_⟩
  · intro d idx st log e hpanic hlen
    have hnotlt : ¬ idx <
        (if st.initialized then st else { st with initialized := true }).cache.length := by
      cases hinit : st.initialized <;> simpa using Nat.not_lt.mpr hlen
    cases hinit : st.initialized <;>
      simp [ladspa_descriptor, hinit, hpanic, Nat.not_lt.mpr hlen]
  · intro ports e log
    rfl
  · intro h log e
    exact ⟨rfl, rfl⟩
  · intro pr sc h m log msg hpanic
    simp only [run]
    rw [hpanic]
  · intro pr sc h m log hok
    simp only [run]
    rw [hok]
  · intro msg A B k b l next sc g m log dp ptrs out hout hA hB hnd hpos
    have hrun := run_adding_single (panicPlugin msg) A B k b l next sc g m
      log dp ptrs out hout hA hB hnd hpos
    simpa [panicPlugin] using hrun
  · decide

/-- Witness for C4: the lookup conjunct at a panicking author `describe`
(index 0, fresh registry), and the run conjunct with a panicking plugin on
the fully connected example instance followed by a healthy `run`. -/
theorem c4_witness :
    ((ladspa_descriptor describePanic 0 RegState.start []).result = none ∧
     (ladspa_descriptor describePanic 0 RegState.start []).log =
       [] ++ [errMsg ("get_ladspa_descriptor")] ∧
     (ladspa_descriptor describePanic 0 RegState.start []).state.cache =
       RegState.start.cache) ∧
    (run (panicPlugin ("boom")) 4 exHandleFull memZero [] =
      ({ exHandleFull with
          port_map := refreshViews 4 exHandleFull.port_map },
       (panicPlugin ("boom") 4
          (portsArg { exHandleFull with
            port_map := refreshViews 4 exHandleFull.port_map }) memZero).1,
       [] ++ [errMsg ("Plugin::run")])) ∧
    (run idPlugin 8 exHandleFull memZero [] =
      ({ exHandleFull with
          port_map := refreshViews 8 exHandleFull.port_map },
       (idPlugin 8
          (portsArg { exHandleFull with
            port_map := refreshViews 8 exHandleFull.port_map }) memZero).1,
       [])) :=
  ⟨c4_failure_isolation.1 describePanic 0 RegState.start [] ("boom") rfl
     (by decide),
   c4_failure_isolation.2.2.2.1 (panicPlugin ("boom")) 4 exHandleFull memZero
     [] ("boom") rfl,
   c4_failure_isolation.2.2.2.2.1 idPlugin 8 exHandleFull memZero [] rfl⟩

/-- C6: running `run` first with sample count 64 and then with sample
count 128 leaves any audio connection (input or output) observing a view
of length 128 whose base pointer is unchanged from the one supplied at
`connect_port`; the length is re-derived per call from the stored base,
never reallocated. Stated for an arbitrary handle, connection key `k`,
stored base `b` and arbitrary author plugins on both calls. -/
theorem c6_length_refresh_keeps_base (h : Handle) (k b l1 l2 : Nat)
    (pr1 pr2 : PluginRun) (m : Mem) (log : List String) :
    ((vmLookup k h.port_map).map PortConnection.data =
        some (.audioInput ⟨b, l1⟩) →
      (vmLookup k
        (run pr2 128 (run pr1 64 h m log).1 (run pr1 64 h m log).2.1
          (run pr1 64 h m log).2.2).1.port_map).map PortConnection.data =
        some (.audioInput ⟨b, 128⟩)) ∧
    ((vmLookup k h.port_map).map PortConnection.data =
        some (.audioOutput ⟨b, l2⟩) →
      (vmLookup k
        (run pr2 128 (run pr1 64 h m log).1 (run pr1 64 h m log).2.1
          (run pr1 64 h m log).2.2).1.port_map).map PortConnection.data =
        some (.audioOutput ⟨b, 128⟩)) := by
  constructor
  · intro hconn
    obtain ⟨conn, hc, hdata⟩ := Option.map_eq_some'.mp hconn
    show (vmLookup k
        (refreshViews 128 (refreshViews 64 h.port_map))).map
        PortConnection.data = _
    rw [vmLookup_refresh, vmLookup_refresh, hc]
    simp [refreshConn, hdata]
  · intro hconn
    obtain ⟨conn, hc, hdata⟩ := Option.map_eq_some'.mp hconn
    show (vmLookup k
        (refreshViews 128 (refreshViews 64 h.port_map))).map
        PortConnection.data = _
    rw [vmLookup_refresh, vmLookup_refresh, hc]
    simp [refreshConn, hdata]

/-- Witness for C6: on the fully connected example instance, the audio
input at key 0 (host base 100) observes the view `⟨100, 128⟩` after run(64)
then run(128). -/
theorem c6_witness :
    (vmLookup 0
      (run idPlugin 128 (run idPlugin 64 exHandleFull memZero []).1
        (run idPlugin 64 exHandleFull memZero []).2.1
        (run idPlugin 64 exHandleFull memZero []).2.2).1.port_map).map
      PortConnection.data = some (.audioInput ⟨100, 128⟩) :=
  (c6_length_refresh_keeps_base exHandleFull 0 100 0 0 idPlugin idPlugin
    memZero []).1 (by decide)

/-- C8: for every port of a plugin being built into a flat descriptor, the
emitted range-hint record's flag field is the bitwise OR of the port's
control-hint bitset (0 when absent) and its default-value code (0 when
absent), and its bound fields are the port's bounds with 0.0 substituted
when absent. -/
theorem c8_range_hint_fields (plugin : PluginDescriptor) (i : Nat)
    (hi : i < plugin.ports.length) :
    (mkDescriptor plugin).port_range_hints[i]? =
      some
        { hint_descriptor :=
            Nat.lor ((plugin.ports[i].hint.map ControlHint.bits).getD 0)
              ((plugin.ports[i].default.map DefaultValue.code).getD 0)
        , lower_bound := plugin.ports[i].lower_bound.getD 0
        , upper_bound := plugin.ports[i].upper_bound.getD 0 } := by
  simp [mkDescriptor, mkHint, List.getElem?_eq_getElem hi]

/-- Witness for C8 at a concrete one-port plugin whose port carries a
toggled control hint (bits 0x4), the default value 1 (code 0x240) and the
bounds 0 and 10: the emitted flag field is `0x4 ||| 0x240`. -/
theorem c8_witness :
    (mkDescriptor
      { unique_id := 1, label := "w", properties := 0, name := "w"
      , maker := "w", copyright := "w"
      , ports := [ { name := "gain", desc := .ControlInput
                   , hint := some ⟨true, false, false, false⟩
                   , default := some .Value1
                   , lower_bound := some 0
                   , upper_bound := some 10 } ] }).port_range_hints[0]? =
      some { hint_descriptor := Nat.lor 0x4 0x240
           , lower_bound := 0, upper_bound := 10 } := by
  have h := c8_range_hint_fields
    { unique_id := 1, label := "w", properties := 0, name := "w"
    , maker := "w", copyright := "w"
    , ports := [ { name := "gain", desc := .ControlInput
                 , hint := some ⟨true, false, false, false⟩
                 , default := some .Value1
                 , lower_bound := some 0
                 , upper_bound := some 10 } ] } 0 (by decide)
  rw [h]
  rfl

/-! ### Helper lemmas: VecMap insertion and the reachable-state invariant -/

theorem vmInsert_fst_mem (k : Nat) (v : PortConnection)
    (pm : List (Nat × PortConnection)) (x : Nat)
    (hx : x ∈ (vmInsert k v pm).map Prod.fst) :
    x = k ∨ x ∈ pm.map Prod.fst := by
  induction pm with
  | nil =>
      simp only [vmInsert, List.map_cons, List.map_nil] at hx
      rcases List.mem_cons.mp hx with h | h
      · exact Or.inl h
      · exact absurd h (List.not_mem_nil x)
  | cons e rest ih =>
      by_cases h1 : k < e.1
      · simp only [vmInsert, if_pos h1, List.map_cons] at hx
        rcases List.mem_cons.mp hx with h | h
        · exact Or.inl h
        · exact Or.inr (by simp only [List.map_cons]; exact h)
      · by_cases h2 : k = e.1
        · simp only [vmInsert, if_neg h1, if_pos h2, List.map_cons] at hx
          rcases List.mem_cons.mp hx with h | h
          · exact Or.inl h
          · exact Or.inr (by
              simp only [List.map_cons]
              exact List.mem_cons_of_mem _ h)
        · simp only [vmInsert, if_neg h1, if_neg h2, List.map_cons] at hx
          rcases List.mem_cons.mp hx with h | h
          · exact Or.inr (by
              simp only [List.map_cons]
              exact h ▸ List.mem_cons_self _ _)
          · rcases ih h with h3 | h3
            · exact Or.inl h3
            · exact Or.inr (by
                simp only [List.map_cons]
                exact List.mem_cons_of_mem _ h3)

theorem vmInsert_sorted (k : Nat) (v : PortConnection)
    (pm : List (Nat × PortConnection))
    (hs : List.Pairwise (· < ·) (pm.map Prod.fst)) :
    List.Pairwise (· < ·) ((vmInsert k v pm).map Prod.fst) := by
  induction pm with
  | nil => simp [vmInsert]
  | cons e rest ih =>
      simp only [List.map_cons, List.pairwise_cons] at hs
      by_cases h1 : k < e.1
      · simp only [vmInsert, if_pos h1, List.map_cons, List.pairwise_cons]
        refine ⟨?_, hs.1, hs.2⟩
        intro x hx
        rcases List.mem_cons.mp hx with h | h
        · omega
        · have := hs.1 x h
          omega
      · by_cases h2 : k = e.1
        · simp only [vmInsert, if_neg h1, if_pos h2, List.map_cons,
            List.pairwise_cons]
          exact ⟨fun x hx => h2 ▸ hs.1 x hx, hs.2⟩
        · simp only [vmInsert, if_neg h1, if_neg h2, List.map_cons,
            List.pairwise_cons]
          refine ⟨?_, ih hs.2⟩
          intro x hx
          rcases vmInsert_fst_mem k v rest x hx with h | h
          · omega
          · exact hs.1 x h

theorem vmInsert_length_of_mem (k : Nat) (v : PortConnection)
    (pm : List (Nat × PortConnection))
    (hs : List.Pairwise (· < ·) (pm.map Prod.fst))
    (hmem : k ∈ pm.map Prod.fst) :
    (vmInsert k v pm).length = pm.length := by
  induction pm with
  | nil => simp at hmem
  | cons e rest ih =>
      simp only [List.map_cons, List.pairwise_cons] at hs
      simp only [List.map_cons] at hmem
      rcases List.mem_cons.mp hmem with h | h
      · simp [vmInsert, h]
      · have hgt : e.1 < k := hs.1 k h
        have h1 : ¬ k < e.1 := by omega
        have h2 : ¬ k = e.1 := by omega
        simp only [vmInsert, if_neg h1, if_neg h2, List.length_cons]
        rw [ih hs.2 h]

/-- Pigeonhole: a strictly sorted list of `N` naturals all below `N`
contains every natural below `N`. -/
theorem sorted_bounded_complete (ks : List Nat) (N : Nat)
    (hs : List.Pairwise (· < ·) ks) (hb : ∀ x ∈ ks, x < N)
    (hlen : ks.length = N) : ∀ x, x < N → x ∈ ks := by
  have hnd : ks.Nodup := hs.imp (fun hlt => Nat.ne_of_lt hlt)
  have hsub : ks ⊆ List.range N := fun x hx => List.mem_range.mpr (hb x hx)
  have hsp := List.subperm_of_subset hnd hsub
  have hperm := hsp.perm_of_length_le (by rw [hlen, List.length_range])
  intro x hx
  exact hperm.mem_iff.mpr (List.mem_range.mpr hx)

/-- A strictly sorted list of `N` naturals all below `N` is exactly
`range N`. -/
theorem sorted_bounded_eq_range (ks : List Nat) (N : Nat)
    (hs : List.Pairwise (· < ·) ks) (hb : ∀ x ∈ ks, x < N)
    (hlen : ks.length = N) : ks = List.range N := by
  have hnd : ks.Nodup := hs.imp (fun hlt => Nat.ne_of_lt hlt)
  have hsub : ks ⊆ List.range N := fun x hx => List.mem_range.mpr (hb x hx)
  have hsp := List.subperm_of_subset hnd hsub
  have hperm := hsp.perm_of_length_le (by rw [hlen, List.length_range])
  exact List.eq_of_perm_of_sorted hperm hs (List.sorted_lt_range N)

/-- The successful shape of `connect_port`: some connection is inserted at
a valid port number, and the `ports` key list is rebuilt exactly when the
map becomes (or stays) full. -/
theorem connect_port_some (h : Handle) (k loc : Nat) (h2 : Handle)
    (hc : connect_port h k loc = some h2) :
    ∃ conn : PortConnection, k < h.descPorts.length ∧
      h2 = { h with
             port_map := vmInsert k conn h.port_map
           , portsKeys :=
               if (vmInsert k conn h.port_map).length = h.descPorts.length
               then (vmInsert k conn h.port_map).map Prod.fst
               else h.portsKeys } := by
  simp only [connect_port] at hc
  split at hc
  · exact absurd hc (by simp)
  · rename_i port hg
    have hk : k < h.descPorts.length := (List.get?_eq_some.mp hg).1
    split at hc
    · exact absurd hc (by simp)
    · rename_i data hdata
      exact ⟨⟨port, data⟩, hk, (Option.some.inj hc).symm⟩

theorem redirectPass_fst (sc : Nat) (pm : List (Nat × PortConnection)) :
    ∀ (scratch : List SliceView) (pm2 : List (Nat × PortConnection))
      (stg : List Nat),
      redirectPass sc pm scratch = some (pm2, stg) →
      pm2.map Prod.fst = pm.map Prod.fst := by
  induction pm with
  | nil =>
      intro scratch pm2 stg hr
      simp only [redirectPass, Option.some.injEq, Prod.mk.injEq] at hr
      rw [← hr.1]
  | cons e rest ih =>
      intro scratch pm2 stg hr
      cases hd : e.2.data with
      | audioOutput v =>
          cases scratch with
          | nil =>
              simp only [redirectPass, hd] at hr
              exact absurd hr (by simp)
          | cons s srest =>
              rw [redirectPass_cons_output sc e rest v s srest hd] at hr
              cases hrec : redirectPass sc rest srest with
              | none => rw [hrec] at hr; simp at hr
              | some p =>
                  rw [hrec] at hr
                  simp only [Option.map_some', Option.some.injEq,
                    Prod.mk.injEq] at hr
                  rw [← hr.1]
                  simp only [List.map_cons]
                  rw [ih srest p.1 p.2 hrec]
      | audioInput v =>
          rw [redirectPass_cons_input sc e rest v scratch hd] at hr
          cases hrec : redirectPass sc rest scratch with
          | none => rw [hrec] at hr; simp at hr
          | some p =>
              rw [hrec] at hr
              simp only [Option.map_some', Option.some.injEq,
                Prod.mk.injEq] at hr
              rw [← hr.1]
              simp only [List.map_cons]
              rw [ih scratch p.1 p.2 hrec]
      | controlInput a =>
          rw [redirectPass_cons_controlIn sc e rest a scratch hd] at hr
          cases hrec : redirectPass sc rest scratch with
          | none => rw [hrec] at hr; simp at hr
          | some p =>
              rw [hrec] at hr
              simp only [Option.map_some', Option.some.injEq,
                Prod.mk.injEq] at hr
              rw [← hr.1]
              simp only [List.map_cons]
              rw [ih scratch p.1 p.2 hrec]
      | controlOutput a =>
          rw [redirectPass_cons_controlOut sc e rest a scratch hd] at hr
          cases hrec : redirectPass sc rest scratch with
          | none => rw [hrec] at hr; simp at hr
          | some p =>
              rw [hrec] at hr
              simp only [Option.map_some', Option.some.injEq,
                Prod.mk.injEq] at hr
              rw [← hr.1]
              simp only [List.map_cons]
              rw [ih scratch p.1 p.2 hrec]

theorem mixPass_fst (sc : Nat) (g : Data) (pm : List (Nat × PortConnection)) :
    ∀ (storage : List Nat) (scratch : List SliceView) (m : Mem)
      (pm2 : List (Nat × PortConnection)) (m2 : Mem),
      mixPass sc g pm storage scratch m = some (pm2, m2) →
      pm2.map Prod.fst = pm.map Prod.fst := by
  induction pm with
  | nil =>
      intro storage scratch m pm2 m2 hr
      simp only [mixPass, Option.some.injEq, Prod.mk.injEq] at hr
      rw [← hr.1]
  | cons e rest ih =>
      intro storage scratch m pm2 m2 hr
      cases hd : e.2.data with
      | audioOutput v =>
          cases storage with
          | nil =>
              simp only [mixPass, hd] at hr
              exact absurd hr (by simp)
          | cons hp hrest =>
              cases scratch with
              | nil =>
                  simp only [mixPass, hd] at hr
                  exact absurd hr (by simp)
              | cons s srest =>
                  rw [mixPass_cons_output sc g e rest v hp hrest s srest m hd]
                    at hr
                  cases hrec : mixPass sc g rest hrest srest
                      (mixInto m hp s.base g sc) with
                  | none => rw [hrec] at hr; simp at hr
                  | some p =>
                      rw [hrec] at hr
                      simp only [Option.map_some', Option.some.injEq,
                        Prod.mk.injEq] at hr
                      rw [← hr.1]
                      simp only [List.map_cons]
                      rw [ih hrest srest _ p.1 p.2 hrec]
      | audioInput v =>
          rw [mixPass_cons_noOutput sc g e rest storage scratch m
                (by simp [isOutputConn, hd])] at hr
          cases hrec : mixPass sc g rest storage scratch m with
          | none => rw [hrec] at hr; simp at hr
          | some p =>
              rw [hrec] at hr
              simp only [Option.map_some', Option.some.injEq,
                Prod.mk.injEq] at hr
              rw [← hr.1]
              simp only [List.map_cons]
              rw [ih storage scratch m p.1 p.2 hrec]
      | controlInput a =>
          rw [mixPass_cons_noOutput sc g e rest storage scratch m
                (by simp [isOutputConn, hd])] at hr
          cases hrec : mixPass sc g rest storage scratch m with
          | none => rw [hrec] at hr; simp at hr
          | some p =>
              rw [hrec] at hr
              simp only [Option.map_some', Option.some.injEq,
                Prod.mk.injEq] at hr
              rw [← hr.1]
              simp only [List.map_cons]
              rw [ih storage scratch m p.1 p.2 hrec]
      | controlOutput a =>
          rw [mixPass_cons_noOutput sc g e rest storage scratch m
                (by simp [isOutputConn, hd])] at hr
          cases hrec : mixPass sc g rest storage scratch m with
          | none => rw [hrec] at hr; simp at hr
          | some p =>
              rw [hrec] at hr
              simp only [Option.map_some', Option.some.injEq,
                Prod.mk.injEq] at hr
              rw [← hr.1]
              simp only [List.map_cons]
              rw [ih storage scratch m p.1 p.2 hrec]

/-- The successful shape of `run_adding`: descriptor, stored reference
list and gain are untouched, and the port map keeps exactly its keys. -/
theorem run_adding_some_shape (pr : PluginRun) (sc : Nat) (h : Handle)
    (m : Mem) (next : Nat) (log : List String)
    (r : Handle × Mem × Nat × List String)
    (hr : run_adding pr sc h m next log = some r) :
    r.1.descPorts = h.descPorts ∧ r.1.portsKeys = h.portsKeys ∧
    r.1.adding_gain = h.adding_gain ∧
    r.1.port_map.map Prod.fst = h.port_map.map Prod.fst := by
  simp only [run_adding] at hr
  split at hr
  · exact absurd hr (by simp)
  · rename_i rd hrd
    split at hr
    · exact absurd hr (by simp)
    · rename_i mx hmx
      have hx := Option.some.inj hr
      subst hx
      refine ⟨rfl, rfl, rfl, ?_⟩
      have h1 := mixPass_fst _ _ _ _ _ _ mx.1 mx.2 hmx
      have h2 := redirectPass_fst _ _ _ rd.1 rd.2 hrd
      simpa [h2] using h1

/-- Every instance operation other than `set_run_adding_gain` leaves the
additive gain unchanged. -/
theorem stepOp_gain (st : InstState) (op : Op) (st2 : InstState)
    (hop : op.isSetGain = false) (hstep : stepOp st op = some st2) :
    st2.handle.adding_gain = st.handle.adding_gain := by
  cases op with
  | connect k loc =>
      simp only [stepOp] at hstep
      cases hc : connect_port st.handle k loc with
      | none => rw [hc] at hstep; simp at hstep
      | some h2 =>
          rw [hc] at hstep
          simp only [Option.map_some', Option.some.injEq] at hstep
          obtain ⟨_, _, hh⟩ := connect_port_some st.handle k loc h2 hc
          rw [← hstep, hh]
  | runOp pr sc =>
      simp only [stepOp, Option.some.injEq] at hstep
      rw [← hstep]
      rfl
  | runAddingOp pr sc =>
      simp only [stepOp] at hstep
      cases hrr : run_adding pr sc st.handle st.mem st.next st.log with
      | none => rw [hrr] at hstep; simp at hstep
      | some r =>
          rw [hrr] at hstep
          simp only [Option.map_some', Option.some.injEq] at hstep
          have := (run_adding_some_shape pr sc st.handle st.mem st.next
            st.log r hrr).2.2.1
          rw [← hstep]
          exact this
  | activateOp a =>
      simp only [stepOp, Option.some.injEq] at hstep
      rw [← hstep]
      rfl
  | deactivateOp a =>
      simp only [stepOp, Option.some.injEq] at hstep
      rw [← hstep]
      rfl
  | setGain g => simp [Op.isSetGain] at hop

/-- Gain preservation over whole call sequences. -/
theorem execOps_gain (ops : List Op) (st st2 : InstState)
    (hops : ∀ op ∈ ops, op.isSetGain = false)
    (hexec : execOps ops st = some st2) :
    st2.handle.adding_gain = st.handle.adding_gain := by
  induction ops generalizing st with
  | nil =>
      simp only [execOps, Option.some.injEq] at hexec
      rw [← hexec]
  | cons op rest ih =>
      cases hs : stepOp st op with
      | none =>
          simp only [execOps, hs] at hexec
          exact absurd hexec (by simp)
      | some st1 =>
          simp only [execOps, hs] at hexec
          have h1 := stepOp_gain st op st1
            (hops op (List.mem_cons_self op rest)) hs
          have h2 := ih st1 (fun o ho => hops o (List.mem_cons_of_mem op ho))
            hexec
          rw [h2, h1]

/-- C9: a freshly instantiated instance has additive gain 1.0, and the
gain keeps that value across any sequence of host calls on the instance
that does not include `set_run_adding_gain`. -/
theorem c9_fresh_gain_one (ports : List Port) (factory : Except String Unit)
    (log : List String) (h : Handle)
    (hinst : (instantiate ports factory log).1 = some h) :
    h.adding_gain = 1 ∧
    ∀ (ops : List Op) (m : Mem) (nx : Nat) (lg : List String)
      (st2 : InstState),
      (∀ op ∈ ops, op.isSetGain = false) →
      execOps ops { handle := h, mem := m, next := nx, log := lg } =
        some st2 →
      st2.handle.adding_gain = 1 := by
  have hh : h = handleInit ports := by
    cases factory with
    | error e => simp [instantiate] at hinst
    | ok u => simpa [instantiate] using hinst.symm
  subst hh
  refine ⟨rfl, ?_⟩
  intro ops m nx lg st2 hops hexec
  have := execOps_gain ops _ st2 hops hexec
  simpa [handleInit] using this

/-- Witness for C9: instantiate the two-port example, connect one port and
run once — the gain is still 1. -/
theorem c9_witness :
    (handleInit [exPortIn, exPortOut]).adding_gain = 1 ∧
    (execOps [.connect 0 100, .runOp idPlugin 4]
        { handle := handleInit [exPortIn, exPortOut], mem := memZero
        , next := 0, log := [] }).map (fun s => s.handle.adding_gain) =
      some 1 := by
  have hc9 := c9_fresh_gain_one [exPortIn, exPortOut] (.ok ()) []
    (handleInit [exPortIn, exPortOut]) rfl
  refine ⟨hc9.1, ?_⟩
  have hops : ∀ op ∈ ([.connect 0 100, .runOp idPlugin 4] : List Op),
      op.isSetGain = false := by
    intro op hop
    rcases List.mem_cons.mp hop with rfl | hop2
    · rfl
    · rcases List.mem_cons.mp hop2 with rfl | hop3
      · rfl
      · exact absurd hop3 (List.not_mem_nil op)
  have hexec : execOps [.connect 0 100, .runOp idPlugin 4]
      { handle := handleInit [exPortIn, exPortOut], mem := memZero
      , next := 0, log := [] } =
      some { handle := ⟨[exPortIn, exPortOut],
                        [(0, ⟨exPortIn, .audioInput ⟨100, 4⟩⟩)], [], 1, [], []⟩
           , mem := memZero, next := 0, log := [] } := rfl
  rw [hexec]
  exact congrArg some (hc9.2 [.connect 0 100, .runOp idPlugin 4] memZero 0 []
    _ hops hexec)

/-- The handle invariant only depends on the key structure, the descriptor
and the stored reference list, so it transports along any operation that
preserves those. -/
theorem handleInv_of_eq (h h2 : Handle) (hinv : HandleInv h)
    (hfst : h2.port_map.map Prod.fst = h.port_map.map Prod.fst)
    (hdp : h2.descPorts = h.descPorts) (hkeys : h2.portsKeys = h.portsKeys) :
    HandleInv h2 := by
  obtain ⟨hs, hb, hk⟩ := hinv
  refine ⟨by rw [hfst]; exact hs, ?_, ?_⟩
  · intro x hx
    rw [hdp]
    rw [hfst] at hx
    exact hb x hx
  · rcases hk with he | ⟨he, hl⟩
    · left
      rw [hkeys, he]
    · right
      refine ⟨by rw [hkeys, he, hfst], ?_⟩
      have hlen2 : h2.port_map.length = h.port_map.length := by
        have := congrArg List.length hfst
        simpa using this
      rw [hlen2, hdp, hl]

/-- `connect_port` preserves the handle invariant. -/
theorem connect_port_inv (h : Handle) (k loc : Nat) (h2 : Handle)
    (hinv : HandleInv h) (hc : connect_port h k loc = some h2) :
    HandleInv h2 := by
  obtain ⟨conn, hk, rfl⟩ := connect_port_some h k loc h2 hc
  obtain ⟨hs, hbnd, hkeys⟩ := hinv
  refine ⟨vmInsert_sorted k conn h.port_map hs, ?_, ?_⟩
  · intro x hx
    rcases vmInsert_fst_mem k conn h.port_map x hx with rfl | h3
    · exact hk
    · exact hbnd x h3
  · by_cases hfull : (vmInsert k conn h.port_map).length = h.descPorts.length
    · right
      exact ⟨by rw [if_pos hfull], hfull⟩
    · rcases hkeys with hempty | ⟨hk2, hlen⟩
      · left
        rw [if_neg hfull, hempty]
      · exfalso
        have hmem : k ∈ h.port_map.map Prod.fst := by
          refine sorted_bounded_complete (h.port_map.map Prod.fst)
            h.descPorts.length hs hbnd ?_ k hk
          rw [List.length_map, hlen]
        have hsame := vmInsert_length_of_mem k conn h.port_map hs hmem
        exact hfull (by rw [hsame, hlen])

/-- Every host call preserves the handle invariant and the descriptor. -/
theorem stepOp_inv (st : InstState) (op : Op) (st2 : InstState)
    (hinv : HandleInv st.handle) (hstep : stepOp st op = some st2) :
    HandleInv st2.handle ∧ st2.handle.descPorts = st.handle.descPorts := by
  cases op with
  | connect k loc =>
      simp only [stepOp] at hstep
      cases hc : connect_port st.handle k loc with
      | none => rw [hc] at hstep; simp at hstep
      | some h2 =>
          rw [hc] at hstep
          simp only [Option.map_some', Option.some.injEq] at hstep
          obtain ⟨conn, hk, hh⟩ := connect_port_some st.handle k loc h2 hc
          rw [← hstep]
          exact ⟨connect_port_inv st.handle k loc h2 hinv hc, by rw [hh]⟩
  | runOp pr sc =>
      simp only [stepOp, Option.some.injEq] at hstep
      rw [← hstep]
      exact ⟨handleInv_of_eq st.handle _ hinv (refreshViews_fst sc _) rfl rfl,
        rfl⟩
  | runAddingOp pr sc =>
      simp only [stepOp] at hstep
      cases hrr : run_adding pr sc st.handle st.mem st.next st.log with
      | none => rw [hrr] at hstep; simp at hstep
      | some r =>
          rw [hrr] at hstep
          simp only [Option.map_some', Option.some.injEq] at hstep
          obtain ⟨hdp, hkeys, _, hfst⟩ := run_adding_some_shape pr sc
            st.handle st.mem st.next st.log r hrr
          rw [← hstep]
          exact ⟨handleInv_of_eq st.handle r.1 hinv hfst hdp hkeys, hdp⟩
  | activateOp a =>
      simp only [stepOp, Option.some.injEq] at hstep
      rw [← hstep]
      exact ⟨hinv, rfl⟩
  | deactivateOp a =>
      simp only [stepOp, Option.some.injEq] at hstep
      rw [← hstep]
      exact ⟨hinv, rfl⟩
  | setGain g =>
      simp only [stepOp, Option.some.injEq] at hstep
      rw [← hstep]
      exact ⟨handleInv_of_eq st.handle _ hinv rfl rfl rfl, rfl⟩

/-- The handle invariant holds in every reachable instance state. -/
theorem execOps_inv (ops : List Op) (st st2 : InstState)
    (hinv : HandleInv st.handle) (hexec : execOps ops st = some st2) :
    HandleInv st2.handle ∧ st2.handle.descPorts = st.handle.descPorts := by
  induction ops generalizing st with
  | nil =>
      simp only [execOps, Option.some.injEq] at hexec
      rw [← hexec]
      exact ⟨hinv, rfl⟩
  | cons op rest ih =>
      cases hs : stepOp st op with
      | none =>
          simp only [execOps, hs] at hexec
          exact absurd hexec (by simp)
      | some st1 =>
          simp only [execOps, hs] at hexec
          obtain ⟨h1, hdp1⟩ := stepOp_inv st op st1 hinv hs
          obtain ⟨h2, hdp2⟩ := ih st1 h1 hexec
          exact ⟨h2, by rw [hdp2, hdp1]⟩

/-- Under the invariant, the author-visible connection list is either
empty or the complete list in port-number order. -/
theorem portsArg_empty_or_complete (h : Handle) (hinv : HandleInv h) :
    portsArg h = [] ∨
      ((portsArg h).length = h.descPorts.length ∧
       portsArg h = (List.range h.descPorts.length).filterMap
         (fun k => vmLookup k h.port_map)) := by
  obtain ⟨hs, hb, hk⟩ := hinv
  rcases hk with he | ⟨hkeys, hlen⟩
  · left
    simp [portsArg, he]
  · right
    have hnd : (h.port_map.map Prod.fst).Nodup := hs.imp Nat.ne_of_lt
    have hpa : portsArg h = h.port_map.map Prod.snd := by
      simp only [portsArg, hkeys]
      exact filterMap_lookup_self h.port_map hnd
    have hrange : h.port_map.map Prod.fst =
        List.range h.descPorts.length :=
      sorted_bounded_eq_range _ _ hs hb (by rw [List.length_map, hlen])
    constructor
    · rw [hpa, List.length_map, hlen]
    · simp only [portsArg, hkeys, hrange]

/-- C1 (amended): in every state an instance can reach from `instantiate`
by host calls, the connection list the author's `run` would be handed — by
`run` (after the view refresh) or by `run_adding` (after the redirect
pass) — is either empty (`handle.ports` still as `instantiate` built it)
or the complete list in port-number order with one entry per descriptor
port. In particular it is never a nonempty strict subset of the ports. -/
theorem c1_ports_list_empty_or_complete (ports : List Port) (ops : List Op)
    (m : Mem) (nx : Nat) (st2 : InstState) (sc : Nat)
    (hexec : execOps ops (freshInstState ports m nx) = some st2) :
    (portsArg { st2.handle with
        port_map := refreshViews sc st2.handle.port_map } = [] ∨
      ((portsArg { st2.handle with
          port_map := refreshViews sc st2.handle.port_map }).length =
          ports.length ∧
       portsArg { st2.handle with
          port_map := refreshViews sc st2.handle.port_map } =
         (List.range ports.length).filterMap
           (fun k => vmLookup k (refreshViews sc st2.handle.port_map)))) ∧
    (∀ (bufs : List SliceView) (pm2 : List (Nat × PortConnection))
        (stg : List Nat),
      redirectPass sc st2.handle.port_map bufs = some (pm2, stg) →
      (portsArg { st2.handle with port_map := pm2 } = [] ∨
        ((portsArg { st2.handle with port_map := pm2 }).length =
            ports.length ∧
         portsArg { st2.handle with port_map := pm2 } =
           (List.range ports.length).filterMap
             (fun k => vmLookup k pm2)))) := by
  have hinv0 : HandleInv (freshInstState ports m nx).handle := by
    refine ⟨List.Pairwise.nil, ?_, Or.inl rfl⟩
    intro x hx
    simp [freshInstState, handleInit] at hx
  obtain ⟨hinv, hdp⟩ := execOps_inv ops _ st2 hinv0 hexec
  have hdp2 : st2.handle.descPorts = ports := by
    simpa [freshInstState, handleInit] using hdp
  constructor
  · have hinvR : HandleInv { st2.handle with
        port_map := refreshViews sc st2.handle.port_map } :=
      handleInv_of_eq st2.handle _ hinv (refreshViews_fst sc _) rfl rfl
    have := portsArg_empty_or_complete _ hinvR
    rw [show ({ st2.handle with
        port_map := refreshViews sc st2.handle.port_map } : Handle).descPorts
        = ports from hdp2] at this
    exact this
  · intro bufs pm2 stg hred
    have hfst := redirectPass_fst sc st2.handle.port_map bufs pm2 stg hred
    have hinvR : HandleInv { st2.handle with port_map := pm2 } :=
      handleInv_of_eq st2.handle _ hinv hfst rfl rfl
    have := portsArg_empty_or_complete _ hinvR
    rw [show ({ st2.handle with port_map := pm2 } : Handle).descPorts
        = ports from hdp2] at this
    exact this

/-- Witness for C1 (amended): the fully connected two-port example yields
the complete ordered list of length 2 for a `run` at sample count 64. -/
theorem c1_witness :
    (portsArg { (Handle.mk [exPortIn, exPortOut]
        [(0, ⟨exPortIn, PortData.audioInput ⟨100, 4⟩⟩),
         (1, ⟨exPortOut, PortData.audioOutput ⟨200, 4⟩⟩)] [0, 1] 1 [] []) with
        port_map := refreshViews 64
          (Handle.mk [exPortIn, exPortOut]
            [(0, ⟨exPortIn, PortData.audioInput ⟨100, 4⟩⟩),
             (1, ⟨exPortOut, PortData.audioOutput ⟨200, 4⟩⟩)] [0, 1] 1 []
            []).port_map } = [] ∨
      ((portsArg { (Handle.mk [exPortIn, exPortOut]
          [(0, ⟨exPortIn, PortData.audioInput ⟨100, 4⟩⟩),
           (1, ⟨exPortOut, PortData.audioOutput ⟨200, 4⟩⟩)] [0, 1] 1 [] []) with
          port_map := refreshViews 64
            (Handle.mk [exPortIn, exPortOut]
              [(0, ⟨exPortIn, PortData.audioInput ⟨100, 4⟩⟩),
               (1, ⟨exPortOut, PortData.audioOutput ⟨200, 4⟩⟩)] [0, 1] 1 []
              []).port_map }).length = ([exPortIn, exPortOut] : List Port).length ∧
       portsArg { (Handle.mk [exPortIn, exPortOut]
          [(0, ⟨exPortIn, PortData.audioInput ⟨100, 4⟩⟩),
           (1, ⟨exPortOut, PortData.audioOutput ⟨200, 4⟩⟩)] [0, 1] 1 [] []) with
          port_map := refreshViews 64
            (Handle.mk [exPortIn, exPortOut]
              [(0, ⟨exPortIn, PortData.audioInput ⟨100, 4⟩⟩),
               (1, ⟨exPortOut, PortData.audioOutput ⟨200, 4⟩⟩)] [0, 1] 1 []
              []).port_map } =
         (List.range ([exPortIn, exPortOut] : List Port).length).filterMap
           (fun k => vmLookup k (refreshViews 64
             (Handle.mk [exPortIn, exPortOut]
               [(0, ⟨exPortIn, PortData.audioInput ⟨100, 4⟩⟩),
                (1, ⟨exPortOut, PortData.audioOutput ⟨200, 4⟩⟩)] [0, 1] 1 []
               []).port_map)))) :=
  (c1_ports_list_empty_or_complete [exPortIn, exPortOut]
    [.connect 0 100, .connect 1 200, .runOp idPlugin 4] memZero 0
    { handle := Handle.mk [exPortIn, exPortOut]
        [(0, ⟨exPortIn, PortData.audioInput ⟨100, 4⟩⟩),
         (1, ⟨exPortOut, PortData.audioOutput ⟨200, 4⟩⟩)] [0, 1] 1 [] []
    , mem := memZero, next := 0, log := [] } 64 rfl).1

/-- C1 counterexample: a two-port descriptor with only port 0 of 2
connected; calling `run` still invokes the author's plugin — the spy
plugin records the length of the list it was handed (0, overwriting the
sentinel 99 at address 0) — so author code runs with a connection list
whose length (0) is not the descriptor's port count (2), contradicting the
claim that `run` after connecting N-1 of N ports never invokes author
code with an incomplete list. -/
theorem c1_counterexample :
    (handleInit [exPortIn, exPortOut]).descPorts.length = 2 ∧
    (connect_port (handleInit [exPortIn, exPortOut]) 0 100).map
      (fun h1 => (run spyPlugin 8 h1 (fun _ => 99) []).2.1 0) = some 0 := by
  constructor
  · rfl
  · decide

/-! ### Helper lemmas: the descriptor registry -/

theorem ladspa_descriptor_cached (d : Nat → Except String (Option PluginDescriptor))
    (i : Nat) (st : RegState) (log : List String) (h : i < st.cache.length) :
    (ladspa_descriptor d i st log).result = st.cache[i]? ∧
    (ladspa_descriptor d i st log).state.cache = st.cache ∧
    (ladspa_descriptor d i st log).invoked = false := by
  cases hinit : st.initialized with
  | true =>
      simp only [ladspa_descriptor, hinit, if_true]
      rw [dif_pos h]
      refine ⟨?_, rfl, rfl⟩
      simp [List.getElem?_eq_getElem h, List.get_eq_getElem, hinit]
  | false =>
      simp only [ladspa_descriptor, hinit, Bool.false_eq_true, if_false]
      rw [dif_pos (show i < ({ st with initialized := true } : RegState).cache.length from h)]
      refine ⟨?_, rfl, rfl⟩
      simp [List.getElem?_eq_getElem h, List.get_eq_getElem, hinit]

theorem ladspa_descriptor_err (d : Nat → Except String (Option PluginDescriptor))
    (i : Nat) (st : RegState) (log : List String) (e : String)
    (h : ¬ i < st.cache.length) (hd : d i = .error e) :
    (ladspa_descriptor d i st log).result = none ∧
    (ladspa_descriptor d i st log).state.cache = st.cache ∧
    (ladspa_descriptor d i st log).invoked = true := by
  cases hinit : st.initialized <;>
    simp [ladspa_descriptor, hinit, h, hd]

theorem ladspa_descriptor_ok_none (d : Nat → Except String (Option PluginDescriptor))
    (i : Nat) (st : RegState) (log : List String)
    (h : ¬ i < st.cache.length) (hd : d i = .ok none) :
    (ladspa_descriptor d i st log).result = none ∧
    (ladspa_descriptor d i st log).state.cache = st.cache ∧
    (ladspa_descriptor d i st log).invoked = true := by
  cases hinit : st.initialized <;>
    simp [ladspa_descriptor, hinit, h, hd]

theorem ladspa_descriptor_ok_some (d : Nat → Except String (Option PluginDescriptor))
    (i : Nat) (st : RegState) (log : List String) (p : PluginDescriptor)
    (h : ¬ i < st.cache.length) (hd : d i = .ok (some p)) :
    (ladspa_descriptor d i st log).result = some st.nextId ∧
    (ladspa_descriptor d i st log).state.cache = st.cache ++ [st.nextId] ∧
    (ladspa_descriptor d i st log).invoked = true := by
  cases hinit : st.initialized <;>
    simp [ladspa_descriptor, hinit, h, hd]

theorem ladspa_descriptor_invoked_iff
    (d : Nat → Except String (Option PluginDescriptor)) (i : Nat)
    (st : RegState) (log : List String) :
    (ladspa_descriptor d i st log).invoked = true ↔ st.cache.length ≤ i := by
  by_cases hlt : i < st.cache.length
  · rw [(ladspa_descriptor_cached d i st log hlt).2.2]
    constructor
    · intro hcon; exact absurd hcon (by simp)
    · intro hle; omega
  · constructor
    · intro _; omega
    · intro _
      cases hdi : d i with
      | error e => exact (ladspa_descriptor_err d i st log e hlt hdi).2.2
      | ok op =>
          cases op with
          | none => exact (ladspa_descriptor_ok_none d i st log hlt hdi).2.2
          | some p => exact (ladspa_descriptor_ok_some d i st log p hlt hdi).2.2

theorem runCalls_cons (d : Nat → Except String (Option PluginDescriptor))
    (c : Nat) (rest : List Nat) (st : RegState) :
    runCalls d (c :: rest) st =
      runCalls d rest (ladspa_descriptor d c st []).state := rfl

/-- One lookup only ever appends to the cache. -/
theorem ladspa_descriptor_cache_exts
    (d : Nat → Except String (Option PluginDescriptor)) (i : Nat)
    (st : RegState) (log : List String) :
    ∃ t, (ladspa_descriptor d i st log).state.cache = st.cache ++ t := by
  by_cases hlt : i < st.cache.length
  · exact ⟨[], by rw [(ladspa_descriptor_cached d i st log hlt).2.1,
      List.append_nil]⟩
  · cases hdi : d i with
    | error e =>
        exact ⟨[], by rw [(ladspa_descriptor_err d i st log e hlt hdi).2.1,
          List.append_nil]⟩
    | ok op =>
        cases op with
        | none =>
            exact ⟨[], by
              rw [(ladspa_descriptor_ok_none d i st log hlt hdi).2.1,
                List.append_nil]⟩
        | some p =>
            exact ⟨[st.nextId],
              (ladspa_descriptor_ok_some d i st log p hlt hdi).2.1⟩

/-- Any call sequence only ever appends to the cache. -/
theorem runCalls_cache_exts (d : Nat → Except String (Option PluginDescriptor))
    (cs : List Nat) (st : RegState) :
    ∃ t, (runCalls d cs st).cache = st.cache ++ t := by
  induction cs generalizing st with
  | nil => exact ⟨[], by simp [runCalls]⟩
  | cons c rest ih =>
      rw [runCalls_cons]
      obtain ⟨t1, h1⟩ := ladspa_descriptor_cache_exts d c st []
      obtain ⟨t2, h2⟩ := ih ((ladspa_descriptor d c st []).state)
      exact ⟨t1 ++ t2, by rw [h2, h1, List.append_assoc]⟩

/-- When the author answers `none` from index `K` on, the cache never
grows beyond `K` entries. -/
theorem ladspa_descriptor_len_le
    (d : Nat → Except String (Option PluginDescriptor)) (K : Nat)
    (hdc : ∀ j, K ≤ j → d j = .ok none) (st : RegState)
    (hlen : st.cache.length ≤ K) (i : Nat) (log : List String) :
    (ladspa_descriptor d i st log).state.cache.length ≤ K := by
  by_cases hlt : i < st.cache.length
  · rw [(ladspa_descriptor_cached d i st log hlt).2.1]
    exact hlen
  · cases hdi : d i with
    | error e =>
        rw [(ladspa_descriptor_err d i st log e hlt hdi).2.1]
        exact hlen
    | ok op =>
        cases op with
        | none =>
            rw [(ladspa_descriptor_ok_none d i st log hlt hdi).2.1]
            exact hlen
        | some p =>
            have hiK : i < K := by
              by_contra hge
              push_neg at hge
              rw [hdc i hge] at hdi
              exact absurd hdi (by simp)
            rw [(ladspa_descriptor_ok_some d i st log p hlt hdi).2.1]
            simp only [List.length_append, List.length_cons, List.length_nil]
            omega

theorem runCalls_len_le (d : Nat → Except String (Option PluginDescriptor))
    (K : Nat) (hdc : ∀ j, K ≤ j → d j = .ok none) (cs : List Nat)
    (st : RegState) (hlen : st.cache.length ≤ K) :
    (runCalls d cs st).cache.length ≤ K := by
  induction cs generalizing st with
  | nil => simpa [runCalls] using hlen
  | cons c rest ih =>
      rw [runCalls_cons]
      exact ih _ (ladspa_descriptor_len_le d K hdc st hlen c [])

/-- C2 (amended): once index `i` lies below the cache length, every later
call with `i` — after any interleaved call sequence — returns the very
pointer cached at position `i` (identical across repeated calls); and when
the author's `describe` answers metadata exactly for indices below `K`
(so that at most `K` descriptors ever get cached), every call with
`i ≥ K` returns null. The original claim's "regardless of the order in
which indices are first looked up" does not hold: a first lookup of a
valid index at or beyond the cache length rebuilds (see the
counterexample). -/
theorem c2_pointer_identity_and_null
    (d : Nat → Except String (Option PluginDescriptor)) (K : Nat)
    (hdc : ∀ j, K ≤ j → d j = .ok none) (st : RegState) (i : Nat)
    (cs : List Nat) (log log2 : List String) :
    (i < st.cache.length →
      (ladspa_descriptor d i st log).result = st.cache[i]? ∧
      (ladspa_descriptor d i (runCalls d cs st) log2).result =
        st.cache[i]?) ∧
    (st.cache.length ≤ K → K ≤ i →
      (ladspa_descriptor d i (runCalls d cs st) log2).result = none) := by
  constructor
  · intro hlt
    refine ⟨(ladspa_descriptor_cached d i st log hlt).1, ?_⟩
    obtain ⟨t, ht⟩ := runCalls_cache_exts d cs st
    have hlt2 : i < (runCalls d cs st).cache.length := by
      rw [ht, List.length_append]
      omega
    rw [(ladspa_descriptor_cached d i _ log2 hlt2).1, ht]
    exact List.getElem?_append_left hlt
  · intro hK hiK
    have hlen2 := runCalls_len_le d K hdc cs st hK
    have hnlt : ¬ i < (runCalls d cs st).cache.length := by omega
    exact (ladspa_descriptor_ok_none d i _ log2 hnlt (hdc i hiK)).1

/-- C2 counterexample: with an author providing plugins at indices 0 and 1,
two consecutive first-ever calls of `ladspa_descriptor(1)` (index 0 never
looked up) return two different pointers — the second call rebuilds the
descriptor because the cache is keyed by insertion position, not by the
requested index. -/
theorem c2_counterexample :
    describeTwo 1 = .ok (some examplePlugin) ∧
    (ladspa_descriptor describeTwo 1
        (ladspa_descriptor describeTwo 1 RegState.start []).state []).result ≠
      (ladspa_descriptor describeTwo 1 RegState.start []).result := by
  refine ⟨rfl, ?_⟩
  decide

/-- Witness for C2 (amended): after caching index 0, a repeat lookup of 0
(here with the interleaved call list `[1]`) returns the same pointer; and
a lookup of index 5 (≥ the plugin count 2 of `describeTwo`) returns
null. -/
theorem c2_witness :
    ((ladspa_descriptor describeTwo 0
        (ladspa_descriptor describeTwo 0 RegState.start []).state []).result =
      (ladspa_descriptor describeTwo 0 RegState.start []).state.cache[0]?) ∧
    (ladspa_descriptor describeTwo 5
      (runCalls describeTwo [1]
        (ladspa_descriptor describeTwo 0 RegState.start []).state) []).result =
      none := by
  have hdc : ∀ j, 2 ≤ j → describeTwo j = .ok none := by
    intro j hj
    have hne : ¬ j ≤ 1 := by omega
    simp [describeTwo, hne]
  constructor
  · exact ((c2_pointer_identity_and_null describeTwo 2 hdc
      (ladspa_descriptor describeTwo 0 RegState.start []).state 0 [] [] []).1
      (by decide)).1
  · exact (c2_pointer_identity_and_null describeTwo 2 hdc
      (ladspa_descriptor describeTwo 0 RegState.start []).state 5 [1] [] []).2
      (by decide) (by decide)

/-- C10 (amended): the author's `describe` is re-invoked exactly when the
requested index is at or beyond the current cache length; a `none` answer
is never cached (the call returns null and leaves the cache unchanged);
and with an author answering `none` from `K` on, every call with `i ≥ K`
re-invokes `describe` no matter what calls happened before. The original
claim's "every call with a no-such-plugin index re-invokes describe" fails
when other indices were first looked up out of order (see the
counterexample). -/
theorem c10_null_never_cached
    (d : Nat → Except String (Option PluginDescriptor)) (i : Nat)
    (st : RegState) (log : List String) :
    ((ladspa_descriptor d i st log).invoked = true ↔ st.cache.length ≤ i) ∧
    (st.cache.length ≤ i → d i = .ok none →
      (ladspa_descriptor d i st log).result = none ∧
      (ladspa_descriptor d i st log).state.cache = st.cache) ∧
    (∀ K, (∀ j, K ≤ j → d j = .ok none) → st.cache.length ≤ K →
      ∀ cs, K ≤ i →
        (ladspa_descriptor d i (runCalls d cs st) log).invoked = true) := by
  refine ⟨ladspa_descriptor_invoked_iff d i st log, ?_, ?_⟩
  · intro hle hd
    have hnlt : ¬ i < st.cache.length := by omega
    exact ⟨(ladspa_descriptor_ok_none d i st log hnlt hd).1,
      (ladspa_descriptor_ok_none d i st log hnlt hd).2.1⟩
  · intro K hdc hK cs hiK
    have hlen2 := runCalls_len_le d K hdc cs st hK
    exact (ladspa_descriptor_invoked_iff d i _ log).mpr (by omega)

/-- C10 counterexample: the author answers "no such plugin" at index 0 and
metadata at index 1. After a first lookup of index 1 (cached at position
0), a call with index 0 does not invoke the author's `describe` at all —
and even returns plugin 1's cached descriptor — although `describe 0` is
`none` and no descriptor was ever built for index 0. -/
theorem c10_counterexample :
    describeGap 0 = .ok none ∧
    (ladspa_descriptor describeGap 0
        (ladspa_descriptor describeGap 1 RegState.start []).state []).invoked =
      false ∧
    (ladspa_descriptor describeGap 0
        (ladspa_descriptor describeGap 1 RegState.start []).state []).result =
      some 0 := by
  refine ⟨rfl, ?_, ?_⟩ <;> decide

/-- Witness for C10 (amended): on the fresh registry, a lookup of index 0
(where `describeGap` answers none) invokes the author, returns null and
caches nothing. -/
theorem c10_witness :
    ((ladspa_descriptor describeGap 0 RegState.start []).invoked = true) ∧
    ((ladspa_descriptor describeGap 0 RegState.start []).result = none ∧
     (ladspa_descriptor describeGap 0 RegState.start []).state.cache =
       RegState.start.cache) :=
  ⟨(c10_null_never_cached describeGap 0 RegState.start []).1.mpr (by decide),
   (c10_null_never_cached describeGap 0 RegState.start []).2.1 (by decide)
     rfl⟩

/-! ### Helper lemmas: the teardown ledger -/

theorem freeOrder_perm_buildOrder (n : Nat) :
    (freeOrder n).Perm (buildOrder n) := by
  unfold freeOrder buildOrder
  exact List.Perm.append_left _ (by decide)

theorem nameStr_injective : Function.Injective Alloc.nameStr := by
  intro a b h
  injection h

theorem buildOrder_nodup (n : Nat) : (buildOrder n).Nodup := by
  have hnames : ((List.range n).map Alloc.nameStr).Nodup :=
    List.Nodup.map nameStr_injective (List.nodup_range n)
  have hdisj1 : List.Disjoint
      [Alloc.label, .name, .maker, .copyright, .kindsArr]
      ((List.range n).map Alloc.nameStr) := by
    intro a ha hb
    simp only [List.mem_map] at hb
    obtain ⟨i, -, rfl⟩ := hb
    simp at ha
  have hdisj2 : List.Disjoint
      ([Alloc.label, .name, .maker, .copyright, .kindsArr] ++
        (List.range n).map Alloc.nameStr)
      [Alloc.namesArr, .hintsArr, .metaBox, .descRecord] := by
    intro a ha hb
    simp only [List.mem_append, List.mem_map] at ha
    rcases ha with ha | ⟨i, -, rfl⟩
    · simp at ha hb
      rcases ha with rfl | rfl | rfl | rfl | rfl <;> simp at hb
    · simp at hb
  unfold buildOrder
  exact List.Nodup.append
    (List.Nodup.append (by decide) hnames hdisj1) (by decide) hdisj2

theorem count_desc_flatMap_lt (t : Nat) (cs : List Nat) (q : Nat) (a : Alloc)
    (hq : q < t) :
    ((List.enumFrom t cs).flatMap
      (fun jn => (freeOrder jn.2).map (FreeEvt.desc jn.1))).count
      (FreeEvt.desc q a) = 0 := by
  induction cs generalizing t with
  | nil => rfl
  | cons c rest ih =>
      simp only [List.enumFrom_cons, List.flatMap_cons, List.count_append]
      rw [List.count_eq_zero_of_not_mem, ih (t + 1) (by omega)]
      intro hmem
      simp only [List.mem_map] at hmem
      obtain ⟨x, -, hx⟩ := hmem
      injection hx with h1 h2
      omega

theorem count_desc_flatMap_ge (t : Nat) (cs : List Nat) (q : Nat) (a : Alloc)
    (hq : t + cs.length ≤ q) :
    ((List.enumFrom t cs).flatMap
      (fun jn => (freeOrder jn.2).map (FreeEvt.desc jn.1))).count
      (FreeEvt.desc q a) = 0 := by
  induction cs generalizing t with
  | nil => rfl
  | cons c rest ih =>
      simp only [List.length_cons] at hq
      simp only [List.enumFrom_cons, List.flatMap_cons, List.count_append]
      rw [List.count_eq_zero_of_not_mem, ih (t + 1) (by omega)]
      intro hmem
      simp only [List.mem_map] at hmem
      obtain ⟨x, -, hx⟩ := hmem
      injection hx with h1 h2
      omega

theorem count_desc_flatMap_at (t : Nat) (cs : List Nat) (j n : Nat) (a : Alloc)
    (hj : cs[j]? = some n) :
    ((List.enumFrom t cs).flatMap
      (fun jn => (freeOrder jn.2).map (FreeEvt.desc jn.1))).count
      (FreeEvt.desc (t + j) a) = (freeOrder n).count a := by
  induction cs generalizing t j with
  | nil => simp at hj
  | cons c rest ih =>
      cases j with
      | zero =>
          simp only [List.getElem?_cons_zero, Option.some.injEq] at hj
          subst hj
          simp only [List.enumFrom_cons, List.flatMap_cons, List.count_append]
          rw [Nat.add_zero]
          have hinj : Function.Injective (FreeEvt.desc t) := by
            intro x y h
            injection h
          rw [List.count_map_of_injective _ _ hinj,
            count_desc_flatMap_lt (t + 1) rest t a (by omega)]
          omega
      | succ j2 =>
          simp only [List.getElem?_cons_succ] at hj
          simp only [List.enumFrom_cons, List.flatMap_cons, List.count_append]
          have harith : t + (j2 + 1) = (t + 1) + j2 := by omega
          rw [harith]
          rw [List.count_eq_zero_of_not_mem, ih (t + 1) j2 hj]
          · omega
          · intro hmem
            simp only [List.mem_map] at hmem
            obtain ⟨x, -, hx⟩ := hmem
            injection hx with h1 h2
            omega

theorem flatMap_no_registry (t : Nat) (cs : List Nat) :
    ((List.enumFrom t cs).flatMap
      (fun jn => (freeOrder jn.2).map (FreeEvt.desc jn.1))).count
      FreeEvt.registryContainer = 0 := by
  induction cs generalizing t with
  | nil => rfl
  | cons c rest ih =>
      simp only [List.enumFrom_cons, List.flatMap_cons, List.count_append]
      rw [List.count_eq_zero_of_not_mem, ih (t + 1)]
      intro hmem
      simp only [List.mem_map] at hmem
      obtain ⟨x, -, hx⟩ := hmem
      exact FreeEvt.noConfusion hx

/-- C5 (amended): `Teardown` frees, for every descriptor the registry
cached (identified by its position and port count) and only those, exactly
the multiset of allocations the builder made — each allocation exactly
once, since `buildOrder` has no duplicates and the free list restricted to
one descriptor is a permutation of its build list; the registry container
is freed exactly once and last; and a second teardown frees nothing. The
frees happen in construction order (label, name, maker, copyright,
port-kind array, each port name in forward index order, range-hint array,
metadata box, descriptor record) with the port-name pointer array last —
not in reverse of construction order (see the counterexample). -/
theorem c5_teardown_exact_frees :
    (∀ n : Nat, (buildOrder n).Nodup ∧ (freeOrder n).Perm (buildOrder n)) ∧
    (∀ (counts : List Nat) (j n : Nat) (a : Alloc), counts[j]? = some n →
      (global_destruct ⟨some counts⟩).1.count (FreeEvt.desc j a) =
        (buildOrder n).count a) ∧
    (∀ (counts : List Nat) (j : Nat) (a : Alloc), counts.length ≤ j →
      (global_destruct ⟨some counts⟩).1.count (FreeEvt.desc j a) = 0) ∧
    (∀ counts : List Nat,
      (global_destruct ⟨some counts⟩).1.getLast? =
        some FreeEvt.registryContainer ∧
      (global_destruct ⟨some counts⟩).1.count FreeEvt.registryContainer = 1) ∧
    (∀ st : TeardownState, (global_destruct (global_destruct st).2).1 = []) := by
  refine ⟨?_, ?_, ?_, ?_, ?_⟩
  · intro n
    exact ⟨buildOrder_nodup n, freeOrder_perm_buildOrder n⟩
  · intro counts j n a hj
    simp only [global_destruct, List.count_append]
    have h1 := count_desc_flatMap_at 0 counts j n a hj
    rw [Nat.zero_add] at h1
    rw [show List.enum counts = List.enumFrom 0 counts from rfl, h1]
    rw [List.count_eq_zero_of_not_mem
      (fun hmem => FreeEvt.noConfusion (List.mem_singleton.mp hmem))]
    rw [Nat.add_zero]
    exact (freeOrder_perm_buildOrder n).count_eq a
  · intro counts j a hj
    simp only [global_destruct, List.count_append]
    rw [show List.enum counts = List.enumFrom 0 counts from rfl]
    rw [count_desc_flatMap_ge 0 counts j a (by omega)]
    rw [List.count_eq_zero_of_not_mem
      (fun hmem => FreeEvt.noConfusion (List.mem_singleton.mp hmem))]
  · intro counts
    constructor
    · simp only [global_destruct]
      exact List.getLast?_concat _
    · simp only [global_destruct, List.count_append]
      rw [show List.enum counts = List.enumFrom 0 counts from rfl]
      rw [flatMap_no_registry 0 counts, List.count_singleton_self]
  · intro st
    obtain ⟨c⟩ := st
    cases c <;> rfl

/-- C5 counterexample: for a one-port descriptor the frees do not occur in
reverse of construction order — the very first free (the label string) is
the first allocation made, which reverse order would free last. -/
theorem c5_counterexample : freeOrder 1 ≠ (buildOrder 1).reverse := by
  decide

/-- Witness for C5 (amended): a registry with one cached two-port
descriptor — its label is freed exactly as often as it was allocated
(once), descriptor index 3 (never cached) gets no frees, the registry
container falls last, and a second teardown frees nothing. -/
theorem c5_witness :
    ((global_destruct ⟨some [2]⟩).1.count (FreeEvt.desc 0 Alloc.label) =
      (buildOrder 2).count Alloc.label) ∧
    ((global_destruct ⟨some [2]⟩).1.count (FreeEvt.desc 3 Alloc.label) = 0) ∧
    ((global_destruct ⟨some [2]⟩).1.getLast? =
      some FreeEvt.registryContainer) ∧
    ((global_destruct (global_destruct ⟨some [2]⟩).2).1 = []) :=
  ⟨c5_teardown_exact_frees.2.1 [2] 0 2 Alloc.label rfl,
   c5_teardown_exact_frees.2.2.1 [2] 3 Alloc.label (by decide),
   (c5_teardown_exact_frees.2.2.2.1 [2]).1,
   c5_teardown_exact_frees.2.2.2.2 ⟨some [2]⟩⟩

end Ladspa
